import Mathlib

/-!
Verification of the clujo task-graph library.

This file gives a shallow embedding of the library's core data structures and
algorithms, translated from the TypeScript source:
  * `src/_context.ts` (the `Context` shared-state object),
  * `src/task-graph.ts` (`TaskGraphBuilder.addTask`, `TaskGraphBuilder.build`,
    `TaskGraphBuilder._topologicalSort`, `TaskGraphRunner.run`),
  * `src/_task.ts` (`Task.run`, retry loop, status field).

JavaScript objects are modelled as association lists in insertion order,
JavaScript values by the inductive `JSVal` (numbers as integers; `NaN` and
floating point are not needed by any claim).  Asynchronous execution is
modelled by an explicit completion schedule: the runner's `Promise.race`
loop is embedded as a worklist that, at each step, launches every ready
task and then processes the completion of one running task chosen by the
schedule, exactly as the single-threaded event loop does.
-/

set_option autoImplicit false

namespace Clujo

/-- A JavaScript value, as far as the claims need: primitives and plain
objects.  Objects are association lists in property-insertion order. -/
inductive JSVal : Type where
  | undef
  | null
  | boolean (b : Bool)
  | number (n : Int)
  | str (s : String)
  | obj (fields : List (String × JSVal))
deriving Repr

/-- A JavaScript object: ordered association list of properties. -/
abbrev JsObj := List (String × JSVal)

/-- JavaScript truthiness: `undefined`, `null`, `false`, `0`, `""` are falsy,
every object is truthy. -/
def jsTruthy : JSVal → Bool
  | .undef => false
  | .null => false
  | .boolean b => b
  | .number n => n != 0
  | .str s => s != ""
  | .obj _ => true

/-- Property lookup on a JavaScript object (first matching key). -/
def jsLookup : JsObj → String → Option JSVal
  | [], _ => none
  | kv :: rest, k => if kv.1 = k then some kv.2 else jsLookup rest k

/-- JavaScript property write (`[[Set]]`): if the key is present the value is
replaced in place (keeping the key's position), otherwise the property is
appended. -/
def jsSet : JsObj → String → JSVal → JsObj
  | [], k, v => [(k, v)]
  | kv :: rest, k, v => if kv.1 = k then (k, v) :: rest else kv :: jsSet rest k v

/-- Object spread merge `{ ...old, ...upd }`: the properties of `upd` are
written over `old` in order, with JavaScript literal-evaluation semantics
(existing keys keep their position and receive the new value, new keys are
appended in order). -/
def jsMerge (old upd : JsObj) : JsObj :=
  upd.foldl (fun acc kv => jsSet acc kv.1 kv.2) old

/-- Spread of a value into an object literal, `{ ...v }`: objects are
shallow-copied; a string contributes its indexed characters; all other
primitives have no own enumerable properties. -/
def jsSpreadVal : JSVal → JSVal
  | .obj fields => .obj fields
  | .str s => .obj ((s.toList.enum).map (fun p => (toString p.1, .str (String.singleton p.2))))
  | _ => .obj []

/-! ## Context (`src/_context.ts`)

`Context.update` chains each merge onto a promise queue, so pending merges
are applied to `this.object` one at a time, in the order the `update` calls
were issued.  A run of the queue with updates `us` (each update issued by the
runner is the singleton object `{ [taskId]: result }`) therefore computes the
left fold of `jsMerge` over `us` in issue order. -/

/-- `Context.reset`: truthy seeds are spread-copied under the reserved
`initial` key; falsy seeds (including `undefined`) leave `initial` holding
`undefined`. -/
def contextReset (initialObject : JSVal) : JsObj :=
  if jsTruthy initialObject then [("initial", jsSpreadVal initialObject)]
  else [("initial", JSVal.undef)]

/-- Draining the ordered update queue: each queued `update({taskName: result})`
call merges its singleton object into the context, in issue order. -/
def updateAll (o : JsObj) (us : List (String × JSVal)) : JsObj :=
  us.foldl (fun acc p => jsMerge acc [p]) o

/-! ## Context seed materialization (`TaskGraphRunner.run`, task-graph.ts) -/

/-- The context seed handed to the runner: a literal value or a zero-argument
factory. -/
inductive SeedSpec : Type where
  | value (v : JSVal)
  | factory (f : Unit → JSVal)

/-- The `value` local computed at the top of `TaskGraphRunner.run`: the seed
is consulted only if truthy (`if (this._contextValueOrFactory)`), and a
factory (a function, hence truthy) is invoked. -/
def seedValue : SeedSpec → JSVal
  | .value v => if jsTruthy v then v else JSVal.undef
  | .factory f => f ()

/-- The context as initialized by `run()`: `this.context.reset(value)`. -/
def runInitialContext (s : SeedSpec) : JsObj :=
  contextReset (seedValue s)

/-! ## Basic lemmas about the object model -/

theorem jsLookup_jsSet (o : JsObj) (k k' : String) (v : JSVal) :
    jsLookup (jsSet o k v) k' = if k' = k then some v else jsLookup o k' := by
  induction o with
  | nil =>
    by_cases h : k' = k
    · simp [jsSet, jsLookup, h]
    · have h' : ¬k = k' := fun e => h e.symm
      simp [jsSet, jsLookup, h, h']
  | cons kv rest ih =>
    by_cases h1 : kv.1 = k
    · by_cases h2 : k' = k
      · simp [jsSet, jsLookup, h1, h2]
      · have h2' : ¬k = k' := fun e => h2 e.symm
        simp [jsSet, jsLookup, h1, h2, h2']
    · by_cases h2 : kv.1 = k'
      · have h3 : ¬k' = k := fun e => h1 (h2.trans e)
        simp [jsSet, jsLookup, h1, h2, h3]
      · simp [jsSet, jsLookup, h1, h2, ih]

theorem jsMerge_single (o : JsObj) (p : String × JSVal) :
    jsMerge o [p] = jsSet o p.1 p.2 := rfl

theorem updateAll_cons (o : JsObj) (p : String × JSVal) (us : List (String × JSVal)) :
    updateAll o (p :: us) = updateAll (jsSet o p.1 p.2) us := rfl

theorem updateAll_preserves (us : List (String × JSVal)) :
    ∀ (o : JsObj) (k : String), (∀ p ∈ us, p.1 ≠ k) →
      jsLookup (updateAll o us) k = jsLookup o k := by
  induction us with
  | nil => intro o k _; rfl
  | cons p rest ih =>
    intro o k h
    rw [updateAll_cons, ih _ k (fun q hq => h q (List.mem_cons_of_mem _ hq)),
      jsLookup_jsSet]
    have hp : p.1 ≠ k := h p (List.mem_cons_self _ _)
    have hp' : ¬k = p.1 := fun e => hp e.symm
    simp [hp']

/-- C4: for every sequence of `Context.update` calls with pairwise distinct
keys, draining the ordered merge queue (which applies the merges one at a
time, in issue order) yields a context containing every key/value pair:
no update is lost, whatever state the context started in. -/
theorem context_update_preserves_all_updates (us : List (String × JSVal)) :
    ∀ (o : JsObj), (us.map Prod.fst).Nodup →
      ∀ p ∈ us, jsLookup (updateAll o us) p.1 = some p.2 := by
  induction us with
  | nil => intro o _ p hp; cases hp
  | cons q rest ih =>
    intro o hnd p hp
    have hnd' : (rest.map Prod.fst).Nodup := (List.nodup_cons.mp hnd).2
    have hq : q.1 ∉ rest.map Prod.fst := (List.nodup_cons.mp hnd).1
    rcases List.mem_cons.mp hp with h | h
    · subst h
      rw [updateAll_cons,
        updateAll_preserves rest _ p.1
          (fun r hr hc => hq (hc ▸ List.mem_map_of_mem Prod.fst hr)),
        jsLookup_jsSet]
      simp
    · rw [updateAll_cons]
      exact ih _ hnd' p h

theorem context_update_preserves_all_updates_witness :
    jsLookup
      (updateAll [("initial", JSVal.undef)]
        [("a", JSVal.number 1), ("b", JSVal.number 2), ("c", JSVal.number 3)])
      "b" = some (JSVal.number 2) :=
  context_update_preserves_all_updates _ _ (by decide) ("b", JSVal.number 2)
    (List.mem_cons_of_mem _ (List.mem_cons_self _ _))

/-- C10: a falsy context seed (such as `0`, `false`, or `""`) is treated as
if no seed were provided: the `initial` key of the freshly reset context
holds `undefined`; a truthy literal seed is materialized under `initial`
(as its object-spread copy, per `Context.reset`). -/
theorem falsy_seed_not_materialized (v : JSVal) :
    (jsTruthy v = false →
      jsLookup (runInitialContext (SeedSpec.value v)) "initial" = some JSVal.undef) ∧
    (jsTruthy v = true →
      jsLookup (runInitialContext (SeedSpec.value v)) "initial" = some (jsSpreadVal v)) := by
  constructor
  · intro h
    have hu : jsTruthy JSVal.undef = false := rfl
    simp [runInitialContext, seedValue, contextReset, h, hu, jsLookup]
  · intro h
    simp [runInitialContext, seedValue, contextReset, h, jsLookup]

theorem falsy_seed_not_materialized_witness :
    jsLookup (runInitialContext (SeedSpec.value (JSVal.number 0))) "initial" =
      some JSVal.undef :=
  (falsy_seed_not_materialized (JSVal.number 0)).1 rfl

/-! ## Task (`src/_task.ts`)

`Task.run` is a `for` loop over attempts `0 .. maxRetries`; each iteration
sets `_status = "running"`, invokes the user `execute` operation, and on
success sets `_status = "completed"` and returns.  On failure it either
sleeps `retryDelayMs` and retries, or — on the final attempt — invokes the
error handler once with the final error, sets `_status = "failed"` and
rethrows.  We record the observable actions as an event trace.  The
`instanceof Error` wrapping is the identity on errors thrown as `Error`
values, which is how we model thrown errors (type `ε`). -/

/-- Task status values (`_status` field). -/
inductive TStatus : Type where
  | pending
  | running
  | completed
  | failed
deriving DecidableEq, Repr

/-- Observable events of one `Task.run` invocation. -/
inductive TaskEvent (ε ν : Type) : Type where
  /-- an assignment to `this._status` -/
  | setStatus (s : TStatus)
  /-- a call of `this.options.execute` (the attempt number) -/
  | invoke (attempt : Nat)
  /-- `await sleep(retryDelayMs)` -/
  | sleep (ms : Nat)
  /-- a call of the error handler with the (final) error -/
  | handleError (e : ε)
deriving DecidableEq, Repr

/-- A value thrown out of `Task.run`: the final execution error, or the
dead-code `"Unexpected end of run method"` error after the loop. -/
inductive Thrown (ε : Type) : Type where
  | err (e : ε)
  | unexpectedEnd
deriving DecidableEq, Repr

/-- The retry loop of `Task.run`.  `fuel` counts the remaining loop
iterations (`maxRetries + 1` at entry), mirroring the loop bound
`attempt < maxRetries + 1`; the fuel-exhausted case is the `throw` that
follows the loop in the source. -/
def taskRunLoop {ε ν : Type} (maxRetries retryDelayMs : Nat) (exec : Nat → Except ε ν) :
    Nat → Nat → List (TaskEvent ε ν) × Except (Thrown ε) ν
  | _, 0 => ([], .error .unexpectedEnd)
  | attempt, fuel + 1 =>
    match exec attempt with
    | .ok v =>
      ([.setStatus .running, .invoke attempt, .setStatus .completed], .ok v)
    | .error e =>
      if attempt = maxRetries then
        ([.setStatus .running, .invoke attempt, .handleError e, .setStatus .failed],
          .error (.err e))
      else
        let rest := taskRunLoop maxRetries retryDelayMs exec (attempt + 1) fuel
        ([.setStatus .running, .invoke attempt, .sleep retryDelayMs] ++ rest.1, rest.2)

/-- `Task.run(deps, ctx)`: run the retry loop from attempt 0. -/
def taskRun {ε ν : Type} (maxRetries retryDelayMs : Nat) (exec : Nat → Except ε ν) :
    List (TaskEvent ε ν) × Except (Thrown ε) ν :=
  taskRunLoop maxRetries retryDelayMs exec 0 (maxRetries + 1)

/-- The sequence of `_status` assignments in an event trace. -/
def statusesOf {ε ν : Type} (evs : List (TaskEvent ε ν)) : List TStatus :=
  evs.filterMap fun e =>
    match e with
    | .setStatus s => some s
    | _ => none

/-- Predicate picking out `execute` invocations. -/
def evIsInvoke {ε ν : Type} : TaskEvent ε ν → Bool
  | .invoke _ => true
  | _ => false

/-- Predicate picking out retry sleeps. -/
def evIsSleep {ε ν : Type} : TaskEvent ε ν → Bool
  | .sleep _ => true
  | _ => false

/-- Predicate picking out error-handler calls. -/
def evIsHandle {ε ν : Type} : TaskEvent ε ν → Bool
  | .handleError _ => true
  | _ => false

theorem filter_flatMap_blocks {α β : Type} (l : List α) (f : α → List β) (p : β → Bool) :
    (l.flatMap f).filter p = l.flatMap fun a => (f a).filter p := by
  induction l with
  | nil => rfl
  | cons a l ih => simp [List.filter_append, ih]

theorem filterMap_flatMap_blocks {α β γ : Type} (l : List α) (f : α → List β) (p : β → Option γ) :
    (l.flatMap f).filterMap p = l.flatMap fun a => (f a).filterMap p := by
  induction l with
  | nil => rfl
  | cons a l ih => simp [List.filterMap_append, ih]

theorem flatMap_single_eq_map {α β : Type} (l : List α) (g : α → β) :
    (l.flatMap fun a => [g a]) = l.map g := by
  induction l with
  | nil => rfl
  | cons a l ih => simp [ih]

/-- Closed form of the retry loop when every attempt fails. -/
theorem taskRunLoop_allFail {ε ν : Type} (m d : Nat) (exec : Nat → Except ε ν)
    (eOf : Nat → ε) (hfail : ∀ k, exec k = .error (eOf k)) :
    ∀ (fuel attempt : Nat), attempt + fuel = m + 1 → attempt ≤ m →
      taskRunLoop m d exec attempt fuel =
        ((List.range' attempt (m - attempt)).flatMap
            (fun k => [.setStatus .running, .invoke k, .sleep d]) ++
          [.setStatus .running, .invoke m, .handleError (eOf m), .setStatus .failed],
         .error (.err (eOf m))) := by
  intro fuel
  induction fuel with
  | zero => intro attempt h1 h2; omega
  | succ fuel ih =>
    intro attempt h1 h2
    by_cases hm : attempt = m
    · subst hm
      simp [taskRunLoop, hfail attempt, Nat.sub_self]
    · have hlt : attempt < m := lt_of_le_of_ne h2 hm
      have hrec := ih (attempt + 1) (by omega) (by omega)
      have hms : m - attempt = (m - (attempt + 1)) + 1 := by omega
      simp only [taskRunLoop, hfail attempt, hm, if_false, hrec, hms,
        List.range'_succ, List.flatMap_cons, List.append_assoc]

/-- C3: a task whose execute operation always throws, run under retry policy
`{maxRetries: n, retryDelayMs: d}`, invokes execute exactly `n + 1` times
(attempts `0 .. n` in order), sleeps `d` between consecutive attempts (the
full trace alternates invoke/sleep), then invokes the error handler exactly
once with the final error, sets the status to `failed`, and rethrows the
final error. -/
theorem task_run_retry_exhaustion {ε ν : Type} (n d : Nat) (exec : Nat → Except ε ν)
    (eOf : Nat → ε) (hfail : ∀ k, exec k = .error (eOf k)) :
    (taskRun n d exec).1.filter evIsInvoke =
        (List.range (n + 1)).map TaskEvent.invoke ∧
    (taskRun n d exec).1.filter evIsSleep =
        List.replicate n (TaskEvent.sleep d) ∧
    (taskRun n d exec).1.filter evIsHandle = [TaskEvent.handleError (eOf n)] ∧
    statusesOf (taskRun n d exec).1 =
        List.replicate (n + 1) TStatus.running ++ [TStatus.failed] ∧
    (taskRun n d exec).2 = .error (.err (eOf n)) ∧
    (taskRun n d exec).1 =
      (List.range n).flatMap
          (fun k => [.setStatus .running, .invoke k, .sleep d]) ++
        [.setStatus .running, .invoke n, .handleError (eOf n), .setStatus .failed] := by
  have hclosed := taskRunLoop_allFail n d exec eOf hfail (n + 1) 0 (by omega) (by omega)
  have hrange : List.range' 0 (n - 0) = List.range n := by
    rw [Nat.sub_zero, List.range_eq_range']
  rw [taskRun] at *
  rw [hclosed, hrange] at *
  refine ⟨?_, ?_, ?_, ?_, rfl, rfl⟩
  · rw [List.filter_append, filter_flatMap_blocks]
    have h1 : ∀ k : Nat,
        (([.setStatus .running, .invoke k, .sleep d] :
            List (TaskEvent ε ν)).filter evIsInvoke) = [.invoke k] := by
      intro k; rfl
    simp only [h1]
    rw [flatMap_single_eq_map]
    have h2 : (([.setStatus .running, .invoke n, .handleError (eOf n),
        .setStatus .failed] : List (TaskEvent ε ν)).filter evIsInvoke) = [.invoke n] := rfl
    rw [h2, List.range_succ, List.map_append]
    rfl
  · rw [List.filter_append, filter_flatMap_blocks]
    have h1 : ∀ k : Nat,
        (([.setStatus .running, .invoke k, .sleep d] :
            List (TaskEvent ε ν)).filter evIsSleep) = [.sleep d] := by
      intro k; rfl
    simp only [h1]
    rw [flatMap_single_eq_map]
    have h2 : (([.setStatus .running, .invoke n, .handleError (eOf n),
        .setStatus .failed] : List (TaskEvent ε ν)).filter evIsSleep) = [] := rfl
    rw [h2, List.append_nil, List.map_const', List.length_range]
  · rw [List.filter_append, filter_flatMap_blocks]
    have h1 : ∀ k : Nat,
        (([.setStatus .running, .invoke k, .sleep d] :
            List (TaskEvent ε ν)).filter evIsHandle) = [] := by
      intro k; rfl
    simp only [h1]
    have h2 : (([.setStatus .running, .invoke n, .handleError (eOf n),
        .setStatus .failed] : List (TaskEvent ε ν)).filter evIsHandle) =
        [.handleError (eOf n)] := rfl
    simp [h2]
  · rw [statusesOf, List.filterMap_append, filterMap_flatMap_blocks]
    have h1 : ∀ k : Nat,
        (([.setStatus .running, .invoke k, .sleep d] :
            List (TaskEvent ε ν)).filterMap fun e =>
              match e with
              | .setStatus s => some s
              | _ => none) = [TStatus.running] := by
      intro k; rfl
    simp only [h1]
    rw [flatMap_single_eq_map]
    have h2 : (([.setStatus .running, .invoke n, .handleError (eOf n),
        .setStatus .failed] : List (TaskEvent ε ν)).filterMap fun e =>
          match e with
          | .setStatus s => some s
          | _ => none) = [TStatus.running, TStatus.failed] := rfl
    rw [h2, List.map_const', List.length_range, List.replicate_succ']
    simp

theorem task_run_retry_exhaustion_witness :
    (taskRun 2 10 (fun _ => Except.error "boom" : Nat → Except String Nat)).1.filter
        evIsInvoke = [.invoke 0, .invoke 1, .invoke 2] ∧
    (taskRun 2 10 (fun _ => Except.error "boom" : Nat → Except String Nat)).2 =
        .error (.err "boom") := by
  have h := task_run_retry_exhaustion 2 10
    (fun _ => Except.error "boom" : Nat → Except String Nat)
    (fun _ => "boom") (fun _ => rfl)
  exact ⟨h.1.trans (by decide), h.2.2.2.2.1⟩

/-! ## Task status state machine (C9) -/

/-- The status transitions realizable by a single `Task.run` invocation:
`pending → running` (first attempt), `running → running` (a retry re-assigns
`"running"`, leaving the field value unchanged), `running → completed`,
`running → failed`.  Terminal states have no outgoing step. -/
def statusStepB : TStatus → TStatus → Bool
  | .pending, .running => true
  | .running, .running => true
  | .running, .completed => true
  | .running, .failed => true
  | _, _ => false

/-- Shape of the status assignments of one `Task.run` invocation: one
`running` write per attempt, then exactly one terminal write, last. -/
theorem taskRunLoop_status_shape {ε ν : Type} (m d : Nat) (exec : Nat → Except ε ν) :
    ∀ (fuel attempt : Nat), attempt + fuel = m + 1 → attempt ≤ m →
      ∃ k t, (t = TStatus.completed ∨ t = TStatus.failed) ∧
        statusesOf (taskRunLoop m d exec attempt fuel).1 =
          List.replicate (k + 1) TStatus.running ++ [t] := by
  intro fuel
  induction fuel with
  | zero => intro attempt h1 h2; omega
  | succ fuel ih =>
    intro attempt h1 h2
    match hx : exec attempt with
    | .ok v =>
      refine ⟨0, .completed, Or.inl rfl, ?_⟩
      simp [taskRunLoop, hx, statusesOf]
    | .error e =>
      by_cases hm : attempt = m
      · subst hm
        refine ⟨0, .failed, Or.inr rfl, ?_⟩
        simp [taskRunLoop, hx, statusesOf]
      · obtain ⟨k, t, ht, hsh⟩ := ih (attempt + 1) (by omega) (by omega)
        refine ⟨k + 1, t, ht, ?_⟩
        simp only [taskRunLoop, hx, hm, if_false]
        simp only [statusesOf, List.filterMap_append] at hsh ⊢
        rw [hsh]
        simp [List.replicate_succ]

theorem chain_replicate_running (t : TStatus) (ht : t = TStatus.completed ∨ t = TStatus.failed) :
    ∀ k : Nat, List.Chain' (fun a b => statusStepB a b = true)
      (TStatus.running :: List.replicate k TStatus.running ++ [t]) := by
  intro k
  induction k with
  | zero => rcases ht with h | h <;> subst h <;> exact List.chain'_pair.mpr rfl
  | succ n ih =>
    show List.Chain' (fun a b => statusStepB a b = true)
      (TStatus.running :: TStatus.running :: (List.replicate n TStatus.running ++ [t]))
    exact List.chain'_cons.mpr ⟨rfl, ih⟩

/-- C9 (amended): during a single `Task.run` invocation, the status history
(starting from the construction-time `pending`) follows the state machine
`pending → running → (completed | failed)`, with a terminal status assigned
exactly once, as the last assignment. -/
theorem task_status_single_run_machine {ε ν : Type} (m d : Nat) (exec : Nat → Except ε ν) :
    ∃ k t, (t = TStatus.completed ∨ t = TStatus.failed) ∧
      statusesOf (taskRun m d exec).1 =
        List.replicate (k + 1) TStatus.running ++ [t] ∧
      List.Chain' (fun a b => statusStepB a b = true)
        (TStatus.pending :: statusesOf (taskRun m d exec).1) ∧
      ∀ s ∈ (TStatus.pending :: statusesOf (taskRun m d exec).1).dropLast,
        s = TStatus.pending ∨ s = TStatus.running := by
  obtain ⟨k, t, ht, hsh0⟩ := taskRunLoop_status_shape m d exec (m + 1) 0 (by omega) (by omega)
  have hsh : statusesOf (taskRun m d exec).1 =
      List.replicate (k + 1) TStatus.running ++ [t] := hsh0
  refine ⟨k, t, ht, hsh, ?_, ?_⟩
  · rw [hsh]
    show List.Chain' (fun a b => statusStepB a b = true)
      (TStatus.pending :: TStatus.running :: (List.replicate k TStatus.running ++ [t]))
    exact List.chain'_cons.mpr ⟨rfl, chain_replicate_running t ht k⟩
  · intro s hs
    rw [hsh] at hs
    have hEq : (TStatus.pending :: (List.replicate (k + 1) TStatus.running ++ [t])) =
        ((TStatus.pending :: List.replicate (k + 1) TStatus.running) ++ [t]) := by
      simp
    rw [hEq, List.dropLast_concat] at hs
    rcases List.mem_cons.mp hs with h | h
    · exact Or.inl h
    · exact Or.inr (List.eq_of_mem_replicate h)

/-- C9 counterexample: task statuses persist on the long-lived `Task` object
(`_status` is never reset), and the runner is re-triggered on every cron
firing, so a second `Task.run` invocation of an already-completed task
re-assigns `running`: the program's status history contains the transition
`completed → running`, which leaves a terminal state.  Concretely, two
consecutive successful runs of a task (`maxRetries = 0`) produce the history
`[pending, running, completed, running, completed]`. -/
theorem task_status_rerun_leaves_terminal :
    (TStatus.pending ::
        (statusesOf (taskRun 0 0 (fun _ => Except.ok (0 : Nat) : Nat → Except String Nat)).1 ++
          statusesOf (taskRun 0 0 (fun _ => Except.ok (0 : Nat) : Nat → Except String Nat)).1)) =
      [TStatus.pending, TStatus.running, TStatus.completed,
        TStatus.running, TStatus.completed] ∧
    (TStatus.pending ::
        (statusesOf (taskRun 0 0 (fun _ => Except.ok (0 : Nat) : Nat → Except String Nat)).1 ++
          statusesOf (taskRun 0 0 (fun _ => Except.ok (0 : Nat) : Nat → Except String Nat)).1)).get?
        2 = some TStatus.completed ∧
    (TStatus.pending ::
        (statusesOf (taskRun 0 0 (fun _ => Except.ok (0 : Nat) : Nat → Except String Nat)).1 ++
          statusesOf (taskRun 0 0 (fun _ => Except.ok (0 : Nat) : Nat → Except String Nat)).1)).get?
        3 = some TStatus.running ∧
    statusStepB TStatus.completed TStatus.running = false := by
  refine ⟨?_, ?_, ?_, rfl⟩ <;> rfl

/-! ## Task graph builder (`TaskGraphBuilder`, src/task-graph.ts)

The builder's `_tasks` is a `Map<string, Task>` keyed by `options.id`, in
insertion order; we model it as the list of stored `Task` objects.  A task
is summarized by its id, its accumulated `_dependencies` list, and its run
behavior: the observable outcome of `Task.run` on the context snapshot it
receives (`some result` if it eventually succeeds, `none` if it exhausts
its retries and throws). -/

/-- A `Task` object as stored in the builder's map. -/
structure MTask : Type where
  id : String
  dependencies : List String
  behavior : JsObj → Option JSVal

/-- The builder's `_tasks` map, in insertion order. -/
abbrev Graph := List MTask

/-- The keys of the task map, in insertion order. -/
def taskIds (g : Graph) : List String := g.map (fun t => t.id)

/-- `this._tasks.get(id)`. -/
def findTask (g : Graph) (id : String) : Option MTask :=
  g.find? (fun t => t.id == id)

/-- The `options` argument of `addTask` (retry policy and error handler are
folded into `behavior`, see `MTask`). -/
structure TaskOptions : Type where
  id : String
  dependencies : List String
  behavior : JsObj → Option JSVal

/-- The dependency-registration loop of `addTask`.  At this point the new
task (with dependency list `acc`) is already in the map, so looking up a
dependency id equal to `taskId` succeeds and then `Task.addDependency`
throws the self-dependency error; an id found in the pre-existing map is
appended to the task's `_dependencies`; an id found nowhere raises the
unknown-dependency error.  Returns the error (if any) and the dependency
list accumulated on the task object so far. -/
def processDeps (b : Graph) (taskId : String) :
    List String → List String → Option String × List String
  | acc, [] => (none, acc)
  | acc, d :: ds =>
    if d ∈ taskIds b ∨ d = taskId then
      if d = taskId then (some "A task cannot depend on itself", acc)
      else processDeps b taskId (acc ++ [d]) ds
    else (some ("Dependency " ++ d ++ " not found for task " ++ taskId), acc)

/-- `TaskGraphBuilder.addTask`: rejects a duplicate id up front (leaving the
map unchanged), otherwise inserts the new task into the map **before**
validating its dependency list.  Returns the thrown error (if any) together
with the task map after the call — mutations performed before a throw
persist, exactly as with the source's `Map`. -/
def addTask (b : Graph) (o : TaskOptions) : Option String × Graph :=
  if o.id ∈ taskIds b then
    (some ("Task with id " ++ o.id ++ " already exists"), b)
  else
    let r := processDeps b o.id [] o.dependencies
    (r.1, b ++ [⟨o.id, r.2, o.behavior⟩])

theorem processDeps_ok (b : Graph) (taskId : String) (ds : List String)
    (h : ∀ d ∈ ds, d ∈ taskIds b ∧ d ≠ taskId) :
    ∀ acc, processDeps b taskId acc ds = (none, acc ++ ds) := by
  induction ds with
  | nil => intro acc; simp [processDeps]
  | cons d ds ih =>
    intro acc
    have hd := h d (List.mem_cons_self _ _)
    rw [processDeps, if_pos (Or.inl hd.1), if_neg hd.2,
      ih (fun x hx => h x (List.mem_cons_of_mem _ hx))]
    simp

theorem processDeps_skip (b : Graph) (taskId : String) (good : List String)
    (h : ∀ d ∈ good, d ∈ taskIds b ∧ d ≠ taskId) :
    ∀ acc rest, processDeps b taskId acc (good ++ rest) =
      processDeps b taskId (acc ++ good) rest := by
  induction good with
  | nil => intro acc rest; simp
  | cons d ds ih =>
    intro acc rest
    have hd := h d (List.mem_cons_self _ _)
    rw [List.cons_append, processDeps, if_pos (Or.inl hd.1), if_neg hd.2,
      ih (fun x hx => h x (List.mem_cons_of_mem _ hx))]
    simp

/-- C7: `addTask` fails with the duplicate-task error whenever the id is
already registered; with a fresh id and a dependency list whose entries are
all registered and distinct from the task itself, it succeeds and registers
the task (with exactly its declared dependencies) at the end of the map;
and at the first offending dependency it fails with the self-dependency
error (if the dependency names the task itself) or the unknown-dependency
error (if the name is not registered). -/
theorem addTask_error_cases (b : Graph) (o : TaskOptions) :
    (o.id ∈ taskIds b →
      addTask b o = (some ("Task with id " ++ o.id ++ " already exists"), b)) ∧
    (o.id ∉ taskIds b →
      (∀ d ∈ o.dependencies, d ∈ taskIds b ∧ d ≠ o.id) →
      addTask b o = (none, b ++ [⟨o.id, o.dependencies, o.behavior⟩])) ∧
    (∀ good bad rest, o.dependencies = good ++ bad :: rest →
      o.id ∉ taskIds b →
      (∀ d ∈ good, d ∈ taskIds b ∧ d ≠ o.id) →
      ((bad = o.id → (addTask b o).1 = some "A task cannot depend on itself") ∧
        (bad ≠ o.id → bad ∉ taskIds b →
          (addTask b o).1 =
            some ("Dependency " ++ bad ++ " not found for task " ++ o.id)))) := by
  refine ⟨?_, ?_, ?_⟩
  · intro hmem
    simp [addTask, hmem]
  · intro hmem hdeps
    simp only [addTask, if_neg hmem, processDeps_ok b o.id o.dependencies hdeps []]
    simp
  · intro good bad rest hsplit hmem hgood
    have hskip := processDeps_skip b o.id good hgood [] (bad :: rest)
    constructor
    · intro hself
      simp only [addTask, if_neg hmem, hsplit, hskip, processDeps,
        if_pos (Or.inr hself), if_pos hself]
    · intro hns hnf
      have hcond : ¬(bad ∈ taskIds b ∨ bad = o.id) := by
        intro hc; rcases hc with hc | hc
        · exact hnf hc
        · exact hns hc
      simp only [addTask, if_neg hmem, hsplit, hskip, processDeps, if_neg hcond]

theorem addTask_error_cases_witness :
    addTask [] ⟨"a", [], fun _ => none⟩ =
      (none, [⟨"a", [], fun _ => none⟩]) :=
  (addTask_error_cases [] ⟨"a", [], fun _ => none⟩).2.1
    (by simp [taskIds]) (by intro d hd; cases hd)

/-- C6 counterexample: a failed `addTask` call does leave the builder
partially mutated.  Adding task `"a"` with unknown dependency `"x"` to an
empty builder throws the unknown-dependency error, yet `"a"` is present in
the task map afterwards. -/
theorem addTask_failed_call_leaves_task :
    (addTask [] ⟨"a", ["x"], fun _ => none⟩).1 =
      some "Dependency x not found for task a" ∧
    "a" ∈ taskIds (addTask [] ⟨"a", ["x"], fun _ => none⟩).2 := by
  constructor
  · rfl
  · decide

/-- C6 (amended): a duplicate-id failure leaves the builder unchanged (the
check precedes any mutation), but any call with a fresh id — including one
that fails with an unknown-dependency or self-dependency error — inserts
the offending task into the map, where it remains after the error. -/
theorem addTask_failure_state (b : Graph) (o : TaskOptions) :
    (o.id ∈ taskIds b → (addTask b o).2 = b) ∧
    (o.id ∉ taskIds b → o.id ∈ taskIds (addTask b o).2) := by
  constructor
  · intro hmem
    simp [addTask, hmem]
  · intro hmem
    rw [addTask, if_neg hmem]
    simp [taskIds]

theorem addTask_failure_state_witness :
    (addTask [⟨"a", [], fun _ => none⟩] ⟨"a", ["x"], fun _ => none⟩).2 =
      [⟨"a", [], fun _ => none⟩] :=
  (addTask_failure_state [⟨"a", [], fun _ => none⟩] ⟨"a", ["x"], fun _ => none⟩).1
    (by decide)

/-! ## Topological sort (`TaskGraphBuilder._topologicalSort` and `build`)

The source's `visit` is an unbounded depth-first recursion with two `Set`s,
`visited` and `temp` (the in-progress stack), pushing each finished task
onto `_topologicalOrder`.  We embed the recursion with explicit fuel;
`none` means the fuel bound was reached (which the theorems show is
unreachable at the fuel `build` supplies, `g.length + 1`, matching the fact
that the source recursion's depth is bounded by the in-progress stack). -/

/-- The mutable state of `_topologicalSort`: the `visited` set, the `temp`
(in-progress) set, and the accumulated `_topologicalOrder`. -/
structure SortState : Type where
  visited : List String
  temp : List String
  order : List String

/-- The body of the `for (const depId of task.dependencies) visit(depId)`
loop, abstracted over the recursive `visit` call `f`: the first `visit`
result that is an error (or fuel exhaustion) aborts the loop. -/
def visitLoop (f : SortState → String → Option (Except String SortState)) :
    SortState → List String → Option (Except String SortState)
  | s, [] => some (.ok s)
  | s, d :: ds =>
    match f s d with
    | none => none
    | some (.error e) => some (.error e)
    | some (.ok s2) => visitLoop f s2 ds

/-- The source's `visit(taskId)`:
cycle check against `temp`, early return when `visited`, lookup failure,
then recursion into the dependencies with `taskId` pushed onto `temp`;
afterwards `taskId` is removed from `temp`, added to `visited` and pushed
onto the order. -/
def visit (g : Graph) : Nat → SortState → String → Option (Except String SortState)
  | 0, _, _ => none
  | fuel + 1, s, taskId =>
    if taskId ∈ s.temp then
      some (.error ("Circular dependency detected involving task " ++ taskId))
    else if taskId ∈ s.visited then some (.ok s)
    else
      match findTask g taskId with
      | none => some (.error ("Task " ++ taskId ++ " not found"))
      | some task =>
        match visitLoop (visit g fuel) { s with temp := taskId :: s.temp }
            task.dependencies with
        | none => none
        | some (.error e) => some (.error e)
        | some (.ok s2) =>
          some (.ok { visited := taskId :: s2.visited,
                      temp := s2.temp.erase taskId,
                      order := s2.order ++ [taskId] })

/-- The driver loop `for (const taskId of this._tasks.keys()) if (!visited.has(taskId)) visit(taskId)`. -/
def sortFold (g : Graph) : List MTask → SortState → Option (Except String SortState)
  | [], s => some (.ok s)
  | t :: ts, s =>
    if t.id ∈ s.visited then sortFold g ts s
    else
      match visit g (g.length + 1) s t.id with
      | none => none
      | some (.error e) => some (.error e)
      | some (.ok s2) => sortFold g ts s2

/-- `TaskGraphBuilder._topologicalSort`: run the driver from the empty state
and return the resulting `_topologicalOrder`. -/
def topologicalSort (g : Graph) : Option (Except String (List String)) :=
  match sortFold g g ⟨[], [], []⟩ with
  | none => none
  | some (.error e) => some (.error e)
  | some (.ok s) => some (.ok s.order)

/-- `TaskGraphBuilder.build`: throws on an empty graph, otherwise sorts and
hands the topological order to the runner. -/
def build (g : Graph) : Option (Except String (List String)) :=
  if g.length = 0 then
    some (.error "Unable to build TaskGraphRunner. No tasks added to the graph")
  else topologicalSort g

/-- Position of the first occurrence of `x` in `l` (length of `l` if absent). -/
def posOf (l : List String) (x : String) : Nat :=
  match l with
  | [] => 0
  | y :: ys => if y = x then 0 else posOf ys x + 1

theorem posOf_append_left (x : String) (l1 l2 : List String) (h : x ∈ l1) :
    posOf (l1 ++ l2) x = posOf l1 x := by
  induction l1 with
  | nil => cases h
  | cons y ys ih =>
    by_cases hy : y = x
    · simp [posOf, hy]
    · have hx : x ∈ ys := by
        rcases List.mem_cons.mp h with h1 | h1
        · exact absurd h1.symm hy
        · exact h1
      simp [posOf, hy, ih hx]

theorem posOf_append_not (x : String) (l1 l2 : List String) (h : x ∉ l1) :
    posOf (l1 ++ l2) x = l1.length + posOf l2 x := by
  induction l1 with
  | nil => simp [posOf]
  | cons y ys ih =>
    have hy : y ≠ x := fun e => h (e ▸ List.mem_cons_self _ _)
    have hx : x ∉ ys := fun hin => h (List.mem_cons_of_mem _ hin)
    simp [posOf, hy, ih hx]
    omega

theorem posOf_lt_length (x : String) (l : List String) (h : x ∈ l) :
    posOf l x < l.length := by
  induction l with
  | nil => cases h
  | cons y ys ih =>
    by_cases hy : y = x
    · simp [posOf, hy]
    · have hx : x ∈ ys := by
        rcases List.mem_cons.mp h with h1 | h1
        · exact absurd h1.symm hy
        · exact h1
      simp [posOf, hy]
      exact ih hx

theorem findTask_eq (g : Graph) (i : String) (t : MTask) (h : findTask g i = some t) :
    t.id = i ∧ t ∈ g := by
  have h1 := List.find?_some h
  have h2 := List.mem_of_find?_eq_some h
  exact ⟨by simpa using h1, h2⟩

theorem findTask_isSome (g : Graph) (i : String) (h : i ∈ taskIds g) :
    ∃ t, findTask g i = some t := by
  rcases List.mem_map.mp h with ⟨t, ht, hid⟩
  have : (findTask g i).isSome := by
    apply List.find?_isSome.mpr
    exact ⟨t, ht, by simpa using hid⟩
  rcases Option.isSome_iff_exists.mp this with ⟨u, hu⟩
  exact ⟨u, hu⟩

theorem findTask_self (g : Graph) (hnodup : (taskIds g).Nodup) :
    ∀ t ∈ g, findTask g t.id = some t := by
  induction g with
  | nil => intro t ht; cases ht
  | cons u g ih =>
    intro t ht
    have hnd : (taskIds g).Nodup := (List.nodup_cons.mp hnodup).2
    have hni : u.id ∉ taskIds g := (List.nodup_cons.mp hnodup).1
    rcases List.mem_cons.mp ht with h | h
    · subst h
      simp [findTask]
    · have hne : ¬(u.id = t.id) := by
        intro e
        exact hni (e ▸ List.mem_map_of_mem (fun x => x.id) h)
      have : (u.id == t.id) = false := by
        simpa using hne
      simp only [findTask, List.find?]
      rw [this]
      exact ih hnd t h

/-- The invariant maintained by the depth-first sort: `visited` and the
emitted order contain the same tasks, the order has no duplicates, and
every task already emitted has all its dependencies emitted strictly
earlier. -/
structure SortInv (g : Graph) (s : SortState) : Prop where
  vis_order : ∀ x, x ∈ s.visited ↔ x ∈ s.order
  nodup : s.order.Nodup
  sorted : ∀ t task, t ∈ s.order → findTask g t = some task →
    ∀ d ∈ task.dependencies, d ∈ s.order ∧ posOf s.order d < posOf s.order t

/-- Soundness of `visit` on ranked graphs: with fuel exceeding the rank of
the visited task, and with every in-progress (`temp`) task of strictly
larger rank, `visit` succeeds, preserves the sort invariant, restores
`temp`, and adds its argument (and only tasks of rank at most its own) to
`visited`, extending the emitted order. -/
theorem visit_ok (g : Graph) (r : String → Nat)
    (hrank : ∀ t ∈ g, ∀ d ∈ t.dependencies, r d < r t.id)
    (hclosed : ∀ t ∈ g, ∀ d ∈ t.dependencies, d ∈ taskIds g) :
    ∀ (fuel : Nat) (taskId : String) (s : SortState),
      r taskId < fuel → taskId ∈ taskIds g → SortInv g s →
      (∀ x ∈ s.temp, r taskId < r x) →
      ∃ s2, visit g fuel s taskId = some (.ok s2) ∧ SortInv g s2 ∧
        s2.temp = s.temp ∧ taskId ∈ s2.visited ∧
        (∀ x ∈ s.visited, x ∈ s2.visited) ∧
        (∀ x ∈ s2.visited, x ∈ s.visited ∨ r x ≤ r taskId) ∧
        (∃ l2, s2.order = s.order ++ l2) := by
  intro fuel
  induction fuel with
  | zero => intro taskId s hf hmem hinv htemp; omega
  | succ fuel ih =>
    have loopSpec : ∀ (ds : List String) (s1 : SortState) (B : Nat),
        B ≤ fuel →
        (∀ d ∈ ds, r d < B ∧ d ∈ taskIds g) →
        SortInv g s1 → (∀ d ∈ ds, ∀ x ∈ s1.temp, r d < r x) →
        ∃ s2, visitLoop (visit g fuel) s1 ds = some (.ok s2) ∧ SortInv g s2 ∧
          s2.temp = s1.temp ∧ (∀ d ∈ ds, d ∈ s2.visited) ∧
          (∀ x ∈ s1.visited, x ∈ s2.visited) ∧
          (∀ x ∈ s2.visited, x ∈ s1.visited ∨ r x < B) ∧
          (∃ l2, s2.order = s1.order ++ l2) := by
      intro ds
      induction ds with
      | nil =>
        intro s1 B _ _ hinv _
        exact ⟨s1, rfl, hinv, rfl, fun d hd => absurd hd (List.not_mem_nil d),
          fun x hx => hx, fun x hx => Or.inl hx, ⟨[], by simp⟩⟩
      | cons d ds ihds =>
        intro s1 B hB hds hinv htemp
        have hd := hds d (List.mem_cons_self _ _)
        obtain ⟨sA, hvisit, hinvA, htempA, hdvisA, hmonoA, hnewA, lA, hordA⟩ :=
          ih d s1 (by omega) hd.2 hinv (htemp d (List.mem_cons_self _ _))
        obtain ⟨sB, hloopB, hinvB, htempB, hdvisB, hmonoB, hnewB, lB, hordB⟩ :=
          ihds sA B hB (fun x hx => hds x (List.mem_cons_of_mem _ hx)) hinvA
            (fun x hx => htempA ▸ htemp x (List.mem_cons_of_mem _ hx))
        refine ⟨sB, ?_, hinvB, htempB.trans htempA, ?_, ?_, ?_, ?_⟩
        · simp only [visitLoop, hvisit, hloopB]
        · intro x hx
          rcases List.mem_cons.mp hx with h | h
          · exact h ▸ hmonoB d hdvisA
          · exact hdvisB x h
        · exact fun x hx => hmonoB x (hmonoA x hx)
        · intro x hx
          rcases hnewB x hx with h | h
          · rcases hnewA x h with h2 | h2
            · exact Or.inl h2
            · exact Or.inr (by omega)
          · exact Or.inr h
        · exact ⟨lA ++ lB, by rw [hordB, hordA, List.append_assoc]⟩
    intro taskId s hf hmem hinv htemp
    have ht1 : taskId ∉ s.temp := fun hx => absurd (htemp taskId hx) (lt_irrefl _)
    by_cases hv : taskId ∈ s.visited
    · refine ⟨s, ?_, hinv, rfl, hv, fun x hx => hx, fun x hx => Or.inl hx, ⟨[], by simp⟩⟩
      simp only [visit, if_neg ht1, if_pos hv]
    · obtain ⟨task, htask⟩ := findTask_isSome g taskId hmem
      obtain ⟨hid, htmem⟩ := findTask_eq g taskId task htask
      have hdeps : ∀ d ∈ task.dependencies, r d < r taskId ∧ d ∈ taskIds g := by
        intro d hd
        exact ⟨hid ▸ hrank task htmem d hd, hclosed task htmem d hd⟩
      have hinv' : SortInv g { s with temp := taskId :: s.temp } :=
        ⟨hinv.vis_order, hinv.nodup, hinv.sorted⟩
      have htemp' : ∀ d ∈ task.dependencies,
          ∀ x ∈ ({ s with temp := taskId :: s.temp } : SortState).temp, r d < r x := by
        intro d hd x hx
        rcases List.mem_cons.mp hx with h | h
        · exact h ▸ (hdeps d hd).1
        · have h1 := (hdeps d hd).1
          have h2 := htemp x h
          omega
      obtain ⟨s2, hloop, hinv2, htemp2, hdeps2, hmono2, hnew2, l2, hord2⟩ :=
        loopSpec task.dependencies { s with temp := taskId :: s.temp } (r taskId)
          (by omega) hdeps hinv' htemp'
      have htaskNotVis : taskId ∉ s2.visited := by
        intro hx
        rcases hnew2 taskId hx with h | h
        · exact hv h
        · exact absurd h (lt_irrefl _)
      have htaskNotOrd : taskId ∉ s2.order :=
        fun hx => htaskNotVis ((hinv2.vis_order taskId).mpr hx)
      refine ⟨⟨taskId :: s2.visited, s2.temp.erase taskId, s2.order ++ [taskId]⟩,
        ?_, ?_, ?_, List.mem_cons_self _ _, ?_, ?_, ?_⟩
      · simp only [visit, if_neg ht1, if_neg hv, htask, hloop]
      · refine ⟨?_, ?_, ?_⟩
        · intro x
          simp only [List.mem_cons, List.mem_append, List.mem_singleton,
            hinv2.vis_order x]
          tauto
        · simp [List.nodup_append, hinv2.nodup, htaskNotOrd]
        · intro t' task' ht' htask' d hd
          rcases List.mem_append.mp ht' with h | h
          · obtain ⟨hdin, hdpos⟩ := hinv2.sorted t' task' h htask' d hd
            refine ⟨List.mem_append_left _ hdin, ?_⟩
            rw [posOf_append_left d _ _ hdin, posOf_append_left t' _ _ h]
            exact hdpos
          · have heq : t' = taskId := List.mem_singleton.mp h
            subst heq
            have htask2 : task' = task := by
              rw [htask] at htask'
              exact (Option.some.inj htask').symm
            subst htask2
            have hdin : d ∈ s2.order :=
              (hinv2.vis_order d).mp (hdeps2 d hd)
            refine ⟨List.mem_append_left _ hdin, ?_⟩
            rw [posOf_append_left d _ _ hdin,
              posOf_append_not t' _ _ htaskNotOrd]
            have := posOf_lt_length d s2.order hdin
            omega
      · rw [htemp2]
        exact List.erase_cons_head taskId s.temp
      · intro x hx
        exact List.mem_cons_of_mem _ (hmono2 x hx)
      · intro x hx
        rcases List.mem_cons.mp hx with h | h
        · exact Or.inr (h ▸ le_refl _)
        · rcases hnew2 x h with h2 | h2
          · exact Or.inl h2
          · exact Or.inr (by omega)
      · exact ⟨l2 ++ [taskId], by rw [hord2, List.append_assoc]⟩

theorem posOf_le_length (x : String) (l : List String) : posOf l x ≤ l.length := by
  induction l with
  | nil => simp [posOf]
  | cons y ys ih =>
    by_cases hy : y = x
    · simp [posOf, hy]
    · simp [posOf, hy]
      omega

/-- Soundness of the sort's driver loop from any invariant-satisfying state
with an empty in-progress set. -/
theorem sortFold_ok (g : Graph) (r : String → Nat)
    (hrank : ∀ t ∈ g, ∀ d ∈ t.dependencies, r d < r t.id)
    (hclosed : ∀ t ∈ g, ∀ d ∈ t.dependencies, d ∈ taskIds g)
    (hbound : ∀ i, r i ≤ g.length) :
    ∀ (ts : List MTask) (s : SortState), (∀ t ∈ ts, t.id ∈ taskIds g) →
      SortInv g s → s.temp = [] →
      ∃ s2, sortFold g ts s = some (.ok s2) ∧ SortInv g s2 ∧
        (∀ t ∈ ts, t.id ∈ s2.visited) ∧ (∀ x ∈ s.visited, x ∈ s2.visited) := by
  intro ts
  induction ts with
  | nil =>
    intro s _ hinv _
    exact ⟨s, rfl, hinv, fun t ht => absurd ht (List.not_mem_nil t), fun x hx => hx⟩
  | cons t ts ihts =>
    intro s hts hinv htmp
    by_cases hv : t.id ∈ s.visited
    · obtain ⟨s2, hfold, hinv2, hvis2, hmono2⟩ :=
        ihts s (fun u hu => hts u (List.mem_cons_of_mem _ hu)) hinv htmp
      refine ⟨s2, ?_, hinv2, ?_, hmono2⟩
      · simp only [sortFold, if_pos hv, hfold]
      · intro u hu
        rcases List.mem_cons.mp hu with h | h
        · exact h ▸ hmono2 t.id hv
        · exact hvis2 u h
    · obtain ⟨sA, hvisit, hinvA, htempA, hvisA, hmonoA, _, _⟩ :=
        visit_ok g r hrank hclosed (g.length + 1) t.id s
          (by have := hbound t.id; omega)
          (hts t (List.mem_cons_self _ _)) hinv
          (by rw [htmp]; intro x hx; cases hx)
      obtain ⟨s2, hfold, hinv2, hvis2, hmono2⟩ :=
        ihts sA (fun u hu => hts u (List.mem_cons_of_mem _ hu)) hinvA
          (htempA.trans htmp)
      refine ⟨s2, ?_, hinv2, ?_, ?_⟩
      · simp only [sortFold, if_neg hv, hvisit, hfold]
      · intro u hu
        rcases List.mem_cons.mp hu with h | h
        · exact h ▸ hmono2 t.id hvisA
        · exact hvis2 u h
      · exact fun x hx => hmono2 x (hmonoA x hx)

/-- Soundness of `_topologicalSort` on ranked (hence acyclic) graphs whose
dependencies are all registered: the sort succeeds and the produced order
contains every task, with every dependency strictly before its dependent. -/
theorem topologicalSort_sound (g : Graph) (r : String → Nat)
    (hrank : ∀ t ∈ g, ∀ d ∈ t.dependencies, r d < r t.id)
    (hclosed : ∀ t ∈ g, ∀ d ∈ t.dependencies, d ∈ taskIds g)
    (hbound : ∀ i, r i ≤ g.length) :
    ∃ ord, topologicalSort g = some (.ok ord) ∧
      (∀ t ∈ g, t.id ∈ ord) ∧
      (∀ i task, i ∈ ord → findTask g i = some task →
        ∀ d ∈ task.dependencies, d ∈ ord ∧ posOf ord d < posOf ord i) := by
  have hinv0 : SortInv g ⟨[], [], []⟩ := by
    refine ⟨?_, List.nodup_nil, ?_⟩
    · intro x; constructor <;> (intro h; cases h)
    · intro t task ht; cases ht
  obtain ⟨s2, hfold, hinv2, hvis2, _⟩ :=
    sortFold_ok g r hrank hclosed hbound g ⟨[], [], []⟩
      (fun t ht => List.mem_map_of_mem (fun u => u.id) ht) hinv0 rfl
  refine ⟨s2.order, ?_, ?_, ?_⟩
  · simp only [topologicalSort, hfold]
  · intro t ht
    exact (hinv2.vis_order t.id).mp (hvis2 t ht)
  · intro i task hi htask d hd
    exact hinv2.sorted i task hi htask d hd

theorem filter_length_mono {α : Type} (p q : α → Bool) (l : List α)
    (hsub : ∀ a ∈ l, p a = true → q a = true) :
    (l.filter p).length ≤ (l.filter q).length := by
  induction l with
  | nil => simp
  | cons a l ih =>
    have ihl := ih (fun x hx => hsub x (List.mem_cons_of_mem _ hx))
    by_cases hp : p a = true
    · have hq := hsub a (List.mem_cons_self _ _) hp
      simp [List.filter_cons, hp, hq]
      omega
    · by_cases hq : q a = true
      · simp [List.filter_cons, hp, hq]
        omega
      · simp [List.filter_cons, hp, hq]
        exact ihl

theorem filter_length_lt {α : Type} (p q : α → Bool) (l : List α)
    (hsub : ∀ a ∈ l, p a = true → q a = true) (w : α) (hw : w ∈ l)
    (hq : q w = true) (hp : p w = false) :
    (l.filter p).length < (l.filter q).length := by
  induction l with
  | nil => cases hw
  | cons a l ih =>
    have hmono := filter_length_mono p q l
      (fun x hx => hsub x (List.mem_cons_of_mem _ hx))
    rcases List.mem_cons.mp hw with h | h
    · subst h
      simp [List.filter_cons, hp, hq]
      omega
    · have ihl := ih (fun x hx => hsub x (List.mem_cons_of_mem _ hx)) h
      by_cases hpa : p a = true
      · have hqa := hsub a (List.mem_cons_self _ _) hpa
        simp [List.filter_cons, hpa, hqa]
        omega
      · by_cases hqa : q a = true
        · simp [List.filter_cons, hpa, hqa]
          omega
        · simp [List.filter_cons, hpa, hqa]
          exact ihl

/-- Any ranking witnessing acyclicity can be normalized to one bounded by
the number of tasks (rank = number of tasks of strictly smaller rank). -/
theorem rank_normalize (g : Graph) (r : String → Nat)
    (hrank : ∀ t ∈ g, ∀ d ∈ t.dependencies, r d < r t.id)
    (hclosed : ∀ t ∈ g, ∀ d ∈ t.dependencies, d ∈ taskIds g) :
    ∃ r2 : String → Nat, (∀ t ∈ g, ∀ d ∈ t.dependencies, r2 d < r2 t.id) ∧
      (∀ i, r2 i ≤ g.length) := by
  refine ⟨fun x => (g.filter (fun u => decide (r u.id < r x))).length, ?_, ?_⟩
  · intro t ht d hd
    obtain ⟨td, htd, htdid⟩ := List.mem_map.mp (hclosed t ht d hd)
    have hedge : r d < r t.id := hrank t ht d hd
    apply filter_length_lt _ _ g ?_ td htd
    · simp only [decide_eq_true_eq]
      rw [htdid]
      exact hedge
    · simp only [decide_eq_false_iff_not]
      rw [htdid]
      exact lt_irrefl _
    · intro a _ ha
      simp only [decide_eq_true_eq] at ha ⊢
      omega
  · intro i
    exact List.length_filter_le _ g

/-- C1: for every graph with no dependency cycles (witnessed, as is standard
for finite DAGs, by a ranking that strictly decreases along dependency
edges) whose task names are distinct and whose declared dependencies are
all registered — as the builder guarantees — and that has at least one
task, `build()` succeeds, and the topological order it produces contains
every task and places every task's dependency strictly before that task. -/
theorem build_sorts_dependencies_first (g : Graph) (r : String → Nat)
    (hnodup : (taskIds g).Nodup)
    (hclosed : ∀ t ∈ g, ∀ d ∈ t.dependencies, d ∈ taskIds g)
    (hrank : ∀ t ∈ g, ∀ d ∈ t.dependencies, r d < r t.id)
    (hne : g ≠ []) :
    ∃ ord, build g = some (.ok ord) ∧ (∀ t ∈ g, t.id ∈ ord) ∧
      ∀ t ∈ g, ∀ d ∈ t.dependencies, d ∈ ord ∧ posOf ord d < posOf ord t.id := by
  obtain ⟨r2, hrank2, hbound2⟩ := rank_normalize g r hrank hclosed
  obtain ⟨ord, hsort, hmem, hsorted⟩ :=
    topologicalSort_sound g r2 hrank2 hclosed hbound2
  have hlen : ¬(g.length = 0) := fun h => hne (List.length_eq_zero.mp h)
  refine ⟨ord, ?_, hmem, ?_⟩
  · rw [build, if_neg hlen]
    exact hsort
  · intro t ht d hd
    exact hsorted t.id t (hmem t ht) (findTask_self g hnodup t ht) d hd

theorem build_sorts_dependencies_first_witness :
    build [⟨"a", [], fun _ => none⟩, ⟨"b", ["a"], fun _ => none⟩] =
      some (.ok ["a", "b"]) ∧
    posOf ["a", "b"] "a" < posOf ["a", "b"] "b" := by
  obtain ⟨ord, h1, _, h3⟩ :=
    build_sorts_dependencies_first
      [⟨"a", [], fun _ => none⟩, ⟨"b", ["a"], fun _ => none⟩]
      (fun x => if x = "a" then 0 else 1)
      (by decide) (by decide) (by decide) (by simp)
  have hb : build [⟨"a", [], fun _ => none⟩, ⟨"b", ["a"], fun _ => none⟩] =
      some (Except.ok ["a", "b"]) := rfl
  have h2 : some (Except.ok ord) = some (Except.ok ["a", "b"]) := h1.symm.trans hb
  have hord : ord = ["a", "b"] := Except.ok.inj (Option.some.inj h2)
  refine ⟨hb, ?_⟩
  have h4 := h3 ⟨"b", ["a"], fun _ => none⟩
    (List.mem_cons_of_mem _ (List.mem_cons_self _ _)) "a" (List.mem_cons_self _ _)
  rw [hord] at h4
  exact h4.2

/-! ## Builder-reachable graphs (C8) -/

/-- The builder states reachable through the public API: the empty builder,
extended by successful `addTask` calls. -/
inductive Reachable : Graph → Prop where
  | empty : Reachable []
  | step (b : Graph) (o : TaskOptions) (hb : Reachable b)
      (hok : (addTask b o).1 = none) : Reachable (addTask b o).2

theorem processDeps_none (b : Graph) (taskId : String) :
    ∀ (ds acc res : List String),
      processDeps b taskId acc ds = (none, res) →
      (∀ d ∈ ds, d ∈ taskIds b ∧ d ≠ taskId) ∧ res = acc ++ ds := by
  intro ds
  induction ds with
  | nil =>
    intro acc res h
    simp only [processDeps, Prod.mk.injEq] at h
    exact ⟨fun d hd => absurd hd (List.not_mem_nil d), by simp [h.2.symm]⟩
  | cons d ds ih =>
    intro acc res h
    by_cases hc : d ∈ taskIds b ∨ d = taskId
    · by_cases hself : d = taskId
      · rw [processDeps, if_pos hc, if_pos hself] at h
        simp at h
      · rw [processDeps, if_pos hc, if_neg hself] at h
        obtain ⟨hds, hres⟩ := ih (acc ++ [d]) res h
        have hdin : d ∈ taskIds b := by
          rcases hc with h1 | h1
          · exact h1
          · exact absurd h1 hself
        refine ⟨?_, by rw [hres]; simp⟩
        intro x hx
        rcases List.mem_cons.mp hx with h1 | h1
        · exact h1 ▸ ⟨hdin, hself⟩
        · exact hds x h1
    · rw [processDeps, if_neg hc] at h
      simp at h

/-- Every builder-reachable graph has distinct task names, registered
dependencies, and dependencies strictly earlier in insertion order. -/
theorem reachable_wf (g : Graph) (h : Reachable g) :
    (taskIds g).Nodup ∧
    (∀ t ∈ g, ∀ d ∈ t.dependencies, d ∈ taskIds g) ∧
    (∀ t ∈ g, ∀ d ∈ t.dependencies,
      posOf (taskIds g) d < posOf (taskIds g) t.id) := by
  induction h with
  | empty =>
    refine ⟨List.nodup_nil, ?_, ?_⟩ <;> (intro t ht; cases ht)
  | step b o hb hok ih =>
    obtain ⟨ihnd, ihcl, ihrk⟩ := ih
    by_cases hmem : o.id ∈ taskIds b
    · rw [addTask, if_pos hmem] at hok
      simp at hok
    · have h1 : (addTask b o).1 = (processDeps b o.id [] o.dependencies).1 := by
        rw [addTask, if_neg hmem]
      have h2 : (addTask b o).2 =
          b ++ [⟨o.id, (processDeps b o.id [] o.dependencies).2, o.behavior⟩] := by
        rw [addTask, if_neg hmem]
      have hok' : (processDeps b o.id [] o.dependencies).1 = none := h1 ▸ hok
      have hpd : processDeps b o.id [] o.dependencies =
          (none, (processDeps b o.id [] o.dependencies).2) :=
        Prod.ext hok' rfl
      obtain ⟨hdeps, hres⟩ := processDeps_none b o.id o.dependencies [] _ hpd
      rw [List.nil_append] at hres
      set nt : MTask := ⟨o.id, (processDeps b o.id [] o.dependencies).2, o.behavior⟩
        with hnt
      have hntdeps : nt.dependencies = o.dependencies := hres
      have hntid : nt.id = o.id := rfl
      have hids : taskIds ((addTask b o).2) = taskIds b ++ [o.id] := by
        rw [h2, taskIds, List.map_append]
        rfl
      refine ⟨?_, ?_, ?_⟩
      · rw [hids]
        simp [List.nodup_append, ihnd, hmem]
      · intro t ht d hd
        rw [hids]
        rw [h2] at ht
        rcases List.mem_append.mp ht with h | h
        · exact List.mem_append_left _ (ihcl t h d hd)
        · have : t = nt := List.mem_singleton.mp h
          subst this
          rw [hntdeps] at hd
          exact List.mem_append_left _ (hdeps d hd).1
      · intro t ht d hd
        rw [hids]
        rw [h2] at ht
        rcases List.mem_append.mp ht with h | h
        · have hdin : d ∈ taskIds b := ihcl t h d hd
          have htin : t.id ∈ taskIds b := List.mem_map_of_mem (fun u => u.id) h
          rw [posOf_append_left d _ _ hdin, posOf_append_left t.id _ _ htin]
          exact ihrk t h d hd
        · have : t = nt := List.mem_singleton.mp h
          subst this
          rw [hntdeps] at hd
          have hdin : d ∈ taskIds b := (hdeps d hd).1
          rw [posOf_append_left d _ _ hdin, hntid,
            posOf_append_not o.id _ _ hmem]
          have h3 := posOf_lt_length d (taskIds b) hdin
          have h4 : posOf [o.id] o.id = 0 := by simp [posOf]
          omega

/-- C8: for every graph constructed solely through successful `addTask`
calls, the topological sort succeeds — in particular the circular-dependency
error branch never fires through the public builder API. -/
theorem builder_reachable_no_cycle_error (g : Graph) (h : Reachable g) :
    ∃ ord, topologicalSort g = some (.ok ord) := by
  obtain ⟨hnd, hcl, hrk⟩ := reachable_wf g h
  have hbound : ∀ i, posOf (taskIds g) i ≤ g.length := by
    intro i
    have := posOf_le_length i (taskIds g)
    rw [taskIds, List.length_map] at this
    exact this
  obtain ⟨ord, hsort, _, _⟩ :=
    topologicalSort_sound g (posOf (taskIds g)) hrk hcl hbound
  exact ⟨ord, hsort⟩

theorem builder_reachable_no_cycle_error_witness :
    topologicalSort
        (addTask (addTask [] ⟨"a", [], fun _ => none⟩).2
          ⟨"b", ["a"], fun _ => none⟩).2 = some (.ok ["a", "b"]) := by
  obtain ⟨ord, hsort⟩ := builder_reachable_no_cycle_error _
    (Reachable.step (addTask [] ⟨"a", [], fun _ => none⟩).2
      ⟨"b", ["a"], fun _ => none⟩
      (Reachable.step [] ⟨"a", [], fun _ => none⟩ Reachable.empty rfl) rfl)
  have hb : topologicalSort
      (addTask (addTask [] ⟨"a", [], fun _ => none⟩).2
        ⟨"b", ["a"], fun _ => none⟩).2 = some (Except.ok ["a", "b"]) := rfl
  exact hb

/-! ## Task graph runner (`TaskGraphRunner.run`)

`run()` keeps a `completed` set, a `running` map of in-flight task
promises, and a `readyTasks` set.  The loop launches every ready task, then
`await Promise.race(running.values())` suspends until some running task
settles; that task's continuation merges its result into the context (on
success), marks it completed, removes it from `running`, and rescans all
tasks for new ready ones.  On the single-threaded event loop these
continuations run atomically, one per settled task, so a run is the launch
loop interleaved with completions of running tasks in some order.  We make
that order explicit as a schedule (a list of indices choosing which running
task settles next); the theorems hold for every schedule.  A task's
`Task.run` promise is summarized by `MTask.behavior` applied to the context
snapshot taken at launch: `some result` (settles fulfilled) or `none`
(settles rejected after the retry loop). -/

/-- JS `Map.set` on a string-keyed association list. -/
def assocSet {α : Type} : List (String × α) → String → α → List (String × α)
  | [], k, v => [(k, v)]
  | kv :: rest, k, v =>
    if kv.1 = k then (k, v) :: rest else kv :: assocSet rest k v

/-- Keyed read with a default value. -/
def assocGetD {α : Type} (d0 : α) : List (String × α) → String → α
  | [], _ => d0
  | kv :: rest, k => if kv.1 = k then kv.2 else assocGetD d0 rest k

theorem assocGetD_assocSet {α : Type} (d0 : α) (l : List (String × α))
    (k k' : String) (v : α) :
    assocGetD d0 (assocSet l k v) k' = if k' = k then v else assocGetD d0 l k' := by
  induction l with
  | nil =>
    by_cases h : k' = k
    · simp [assocSet, assocGetD, h]
    · have h' : ¬k = k' := fun e => h e.symm
      simp [assocSet, assocGetD, h, h']
  | cons kv rest ih =>
    by_cases h1 : kv.1 = k
    · by_cases h2 : k' = k
      · simp [assocSet, assocGetD, h1, h2]
      · have h2' : ¬k = k' := fun e => h2 e.symm
        simp [assocSet, assocGetD, h1, h2, h2']
    · by_cases h2 : kv.1 = k'
      · have h3 : ¬k' = k := fun e => h1 (h2.trans e)
        simp [assocSet, assocGetD, h1, h2, h3]
      · simp [assocSet, assocGetD, h1, h2, ih]

theorem assocSet_of_not_mem {α : Type} (l : List (String × α)) (k : String) (v : α)
    (h : k ∉ l.map Prod.fst) : assocSet l k v = l ++ [(k, v)] := by
  induction l with
  | nil => rfl
  | cons kv rest ih =>
    have h1 : ¬(kv.1 = k) := fun e => h (by simp [e])
    have h2 : k ∉ rest.map Prod.fst := fun hx => h (by simp [hx])
    simp [assocSet, h1, ih h2]

/-- The per-task `_status` field, read from the per-run status map (tasks
are constructed `pending`). -/
def statusOf (sts : List (String × TStatus)) (id : String) : TStatus :=
  assocGetD TStatus.pending sts id

/-- The state threaded through one `run()` invocation. -/
structure RunState : Type where
  completed : List String
  running : List (String × Option JSVal)
  ready : List String
  statuses : List (String × TStatus)
  ctx : JsObj
  launched : List String

/-- The keys of the `running` map. -/
def runningIds (st : RunState) : List String := st.running.map Prod.fst

/-- The readiness re-check performed for a task after some task finished:
`t.dependencies.every(depId => depTask && completed.has(depId) &&
depTask.status === "completed")`. -/
def canRun (tasks : Graph) (st : RunState) (t : MTask) : Bool :=
  t.dependencies.all fun depId =>
    match findTask tasks depId with
    | none => false
    | some _ =>
      st.completed.contains depId && (statusOf st.statuses depId == TStatus.completed)

/-- One step of the rescan loop: a not-completed, not-running task whose
dependencies all finished with status `completed` is added to the ready set
(`Set.add`: no duplicates). -/
def rescanStep (tasks : Graph) (st : RunState) (acc : List String) (t : MTask) :
    List String :=
  if !(st.completed.contains t.id) && !((runningIds st).contains t.id) then
    if canRun tasks st t then
      (if acc.contains t.id then acc else acc ++ [t.id])
    else acc
  else acc

/-- The rescan loop over `this._tasks` run in `runTask`'s `finally`. -/
def rescanReady (tasks : Graph) (st : RunState) : List String :=
  tasks.foldl (rescanStep tasks st) st.ready

/-- Launching every ready task: each is removed from the ready set, its
`Task.run` is started — which sets its status to `"running"` and invokes
its execute operation on the current context snapshot — and its pending
outcome is stored in the `running` map. -/
def launchReady (tasks : Graph) : List String → RunState → Except String RunState
  | [], st => .ok st
  | id :: rest, st =>
    match findTask tasks id with
    | none => .error ("Task " ++ id ++ " not found")
    | some t =>
      launchReady tasks rest
        { st with
          running := assocSet st.running id (t.behavior st.ctx),
          statuses := assocSet st.statuses id TStatus.running,
          launched := st.launched ++ [id] }

/-- Processing the completion of the running task `id` with outcome `res`:
on success its status was set to `completed` by `Task.run` and its result
is merged into the context; on failure its status was set to `failed`;
either way it is added to the `completed` set, removed from `running`, and
the ready set is rescanned. -/
def completeTask (tasks : Graph) (st : RunState) (id : String) (res : Option JSVal) :
    RunState :=
  let stA :=
    match res with
    | some v =>
      { st with
        ctx := jsMerge st.ctx [(id, v)],
        statuses := assocSet st.statuses id TStatus.completed,
        completed := if st.completed.contains id then st.completed
                     else st.completed ++ [id] }
    | none =>
      { st with
        statuses := assocSet st.statuses id TStatus.failed,
        completed := if st.completed.contains id then st.completed
                     else st.completed ++ [id] }
  let stB := { stA with running := stA.running.filter (fun p => p.1 != id) }
  { stB with ready := rescanReady tasks stB }

/-- The `while (completed.size < this._tasks.size)` loop: launch all ready
tasks; if none is running, break (deadlock after failures); otherwise wait
for the settlement chosen by the schedule and process it.  `none` reports
fuel exhaustion (never reached at the fuel `runGraph` supplies, since every
iteration completes one more distinct task). -/
def runLoop (tasks : Graph) : Nat → List Nat → RunState → Option (Except String RunState)
  | fuel, sched, st =>
    if st.completed.length ≥ tasks.length then some (.ok st)
    else
      match launchReady tasks st.ready { st with ready := [] } with
      | .error e => some (.error e)
      | .ok st1 =>
        if h : st1.running.length = 0 then some (.ok st1)
        else
          match fuel with
          | 0 => none
          | fuel + 1 =>
            let i := sched.headD 0 % st1.running.length
            let pr := st1.running.get ⟨i, Nat.mod_lt _ (Nat.pos_of_ne_zero h)⟩
            runLoop tasks fuel sched.tail (completeTask tasks st1 pr.1 pr.2)

/-- The initial ready set: `new Set(order.filter(id => deps(id).length === 0))`,
where a missing task id makes the filter callback throw. -/
def initReady (tasks : Graph) : List String → Except String (List String)
  | [] => .ok []
  | id :: rest =>
    match findTask tasks id with
    | none => .error ("Task " ++ id ++ " not found")
    | some t =>
      match initReady tasks rest with
      | .error e => .error e
      | .ok r => .ok (if t.dependencies.isEmpty then id :: r else r)

/-- `TaskGraphRunner.run()`: reject on an empty topological order,
materialize the context seed, compute the initial ready set, and run the
loop.  The result is the final run state; the promise's value is its
context. -/
def runGraph (tasks : Graph) (order : List String) (seed : SeedSpec)
    (sched : List Nat) : Option (Except String RunState) :=
  if order.length = 0 then
    some (.error "No tasks to run. Did you forget to call topologicalSort?")
  else
    match initReady tasks order with
    | .error e => some (.error e)
    | .ok ready0 =>
      runLoop tasks (tasks.length + 1) sched
        ⟨[], [], ready0, [], runInitialContext seed, []⟩

/-! ## Runner lemmas -/

theorem contains_true_iff (l : List String) (a : String) :
    l.contains a = true ↔ a ∈ l := List.elem_iff

theorem contains_false_iff (l : List String) (a : String) :
    l.contains a = false ↔ a ∉ l := by
  rw [← contains_true_iff l a]
  cases h : l.contains a <;> simp

theorem findTask_mem (g : Graph) (i : String) (t : MTask)
    (h : findTask g i = some t) : i ∈ taskIds g := by
  obtain ⟨hid, hmem⟩ := findTask_eq g i t h
  exact hid ▸ List.mem_map_of_mem (fun u => u.id) hmem

theorem map_fst_filter_ne {α : Type} (l : List (String × α)) (id : String) :
    (l.filter (fun p => p.1 != id)).map Prod.fst =
      (l.map Prod.fst).filter (fun x => x != id) := by
  induction l with
  | nil => rfl
  | cons p rest ih =>
    by_cases h : p.1 = id
    · simp [List.filter_cons, h, ih]
    · simp [List.filter_cons, h, ih]

/-- Effect of launching a wave of ready tasks (all present in the task map,
distinct, and not already running): every launch appends the pending
outcome — the task's behavior applied to the current context snapshot — to
the `running` map, sets the task's status to `running`, and logs the
invocation. -/
theorem launchReady_spec (tasks : Graph) :
    ∀ (ids : List String) (st : RunState),
      (∀ id ∈ ids, id ∈ taskIds tasks) → ids.Nodup →
      (∀ id ∈ ids, id ∉ runningIds st) →
      ∃ st1, launchReady tasks ids st = .ok st1 ∧
        st1.completed = st.completed ∧
        st1.ctx = st.ctx ∧
        st1.ready = st.ready ∧
        runningIds st1 = runningIds st ++ ids ∧
        st1.launched = st.launched ++ ids ∧
        (∀ k, k ∉ ids → statusOf st1.statuses k = statusOf st.statuses k) ∧
        (∀ k ∈ ids, statusOf st1.statuses k = TStatus.running) ∧
        (∀ p ∈ st1.running, p ∈ st.running ∨
          (p.1 ∈ ids ∧ ∃ t, findTask tasks p.1 = some t ∧
            p.2 = t.behavior st.ctx)) := by
  intro ids
  induction ids with
  | nil =>
    intro st _ _ _
    exact ⟨st, rfl, rfl, rfl, rfl, by simp, by simp,
      fun k _ => rfl, fun k hk => absurd hk (List.not_mem_nil k),
      fun p hp => Or.inl hp⟩
  | cons id rest ih =>
    intro st hin hnd hnr
    obtain ⟨t, ht⟩ := findTask_isSome tasks id (hin id (List.mem_cons_self _ _))
    have hidnr : id ∉ runningIds st := hnr id (List.mem_cons_self _ _)
    set st' : RunState :=
      { st with
        running := assocSet st.running id (t.behavior st.ctx),
        statuses := assocSet st.statuses id TStatus.running,
        launched := st.launched ++ [id] } with hst'
    have hrun' : st'.running = st.running ++ [(id, t.behavior st.ctx)] := by
      rw [hst']
      exact assocSet_of_not_mem st.running id _ hidnr
    have hrunIds' : runningIds st' = runningIds st ++ [id] := by
      rw [runningIds, hrun', List.map_append]
      rfl
    have hnd' : rest.Nodup := (List.nodup_cons.mp hnd).2
    have hidrest : id ∉ rest := (List.nodup_cons.mp hnd).1
    have hnr' : ∀ x ∈ rest, x ∉ runningIds st' := by
      intro x hx
      rw [hrunIds']
      intro hmem
      rcases List.mem_append.mp hmem with h | h
      · exact hnr x (List.mem_cons_of_mem _ hx) h
      · exact hidrest (List.mem_singleton.mp h ▸ hx)
    obtain ⟨st1, hlaunch, hcomp, hctx, hready, hrids, hlau, hstat, hstatin, hentries⟩ :=
      ih st' (fun x hx => hin x (List.mem_cons_of_mem _ hx)) hnd' hnr'
    have hctx' : st'.ctx = st.ctx := rfl
    refine ⟨st1, ?_, hcomp, hctx.trans hctx', hready, ?_, ?_, ?_, ?_, ?_⟩
    · simp only [launchReady, ht]
      exact hlaunch
    · rw [hrids, hrunIds', List.append_assoc]
      rfl
    · rw [hlau]
      show st.launched ++ [id] ++ rest = _
      rw [List.append_assoc]
      rfl
    · intro k hk
      have hk1 : k ≠ id := fun e => hk (e ▸ List.mem_cons_self _ _)
      have hk2 : k ∉ rest := fun e => hk (List.mem_cons_of_mem _ e)
      rw [hstat k hk2]
      show assocGetD TStatus.pending (assocSet st.statuses id TStatus.running) k = _
      rw [assocGetD_assocSet, if_neg hk1]
      rfl
    · intro k hk
      rcases List.mem_cons.mp hk with h | h
      · subst h
        rw [hstat k hidrest]
        show assocGetD TStatus.pending (assocSet st.statuses k TStatus.running) k = _
        rw [assocGetD_assocSet]
        simp
      · exact hstatin k h
    · intro p hp
      rcases hentries p hp with h | h
      · rw [hrun'] at h
        rcases List.mem_append.mp h with h1 | h1
        · exact Or.inl h1
        · have : p = (id, t.behavior st.ctx) := List.mem_singleton.mp h1
          subst this
          exact Or.inr ⟨List.mem_cons_self _ _, t, ht, rfl⟩
      · exact Or.inr ⟨List.mem_cons_of_mem _ h.1, by rw [← hctx']; exact h.2⟩

/-- Every member of the rescanned ready set either was already ready or is
the id of a not-completed, not-running task whose readiness check passed. -/
theorem rescanReady_mem (tasks : Graph) (st : RunState) :
    ∀ (l : List MTask) (acc : List String) (id : String),
      id ∈ List.foldl (rescanStep tasks st) acc l →
      id ∈ acc ∨ ∃ t ∈ l, t.id = id ∧ id ∉ st.completed ∧
        id ∉ runningIds st ∧ canRun tasks st t = true := by
  intro l
  induction l with
  | nil => intro acc id h; exact Or.inl h
  | cons t l ih =>
    intro acc id h
    rcases ih (rescanStep tasks st acc t) id h with h1 | h1
    · rw [rescanStep] at h1
      by_cases hg : (!(st.completed.contains t.id) &&
          !((runningIds st).contains t.id)) = true
      · rw [if_pos hg] at h1
        by_cases hc : canRun tasks st t = true
        · rw [if_pos hc] at h1
          by_cases hacc : acc.contains t.id = true
          · rw [if_pos hacc] at h1
            exact Or.inl h1
          · rw [if_neg hacc] at h1
            rcases List.mem_append.mp h1 with h2 | h2
            · exact Or.inl h2
            · have hid : t.id = id := (List.mem_singleton.mp h2).symm
              have hg1 := (Bool.and_eq_true _ _).mp hg
              refine Or.inr ⟨t, List.mem_cons_self _ _, hid, ?_, ?_, hc⟩
              · rw [← hid]
                exact (contains_false_iff _ _).mp (by simpa using hg1.1)
              · rw [← hid]
                exact (contains_false_iff _ _).mp (by simpa using hg1.2)
        · rw [if_neg hc] at h1
          exact Or.inl h1
      · rw [if_neg hg] at h1
        exact Or.inl h1
    · obtain ⟨u, hu, rest⟩ := h1
      exact Or.inr ⟨u, List.mem_cons_of_mem _ hu, rest⟩

theorem rescanReady_nodup (tasks : Graph) (st : RunState) :
    ∀ (l : List MTask) (acc : List String), acc.Nodup →
      (List.foldl (rescanStep tasks st) acc l).Nodup := by
  intro l
  induction l with
  | nil => intro acc h; exact h
  | cons t l ih =>
    intro acc h
    apply ih
    rw [rescanStep]
    by_cases hg : (!(st.completed.contains t.id) &&
        !((runningIds st).contains t.id)) = true
    · rw [if_pos hg]
      by_cases hc : canRun tasks st t = true
      · rw [if_pos hc]
        by_cases hacc : acc.contains t.id = true
        · rw [if_pos hacc]
          exact h
        · rw [if_neg hacc]
          have hf : acc.contains t.id = false := by
            cases hb : acc.contains t.id
            · rfl
            · exact absurd hb hacc
          have hnin : t.id ∉ acc := (contains_false_iff _ _).mp hf
          simp [List.nodup_append, h, hnin]
      · rw [if_neg hc]
        exact h
    · rw [if_neg hg]
      exact h

/-- Field-level description of `completeTask` for a task not yet completed:
it is appended to the completed set, removed from `running`, its status
becomes `completed` or `failed` according to its outcome, its result (if
any) is merged into the context, and the ready set is recomputed by the
rescan from the post-completion state. -/
theorem completeTask_spec (tasks : Graph) (st : RunState) (id : String)
    (res : Option JSVal) (hnotc : ¬(st.completed.contains id = true)) :
    (completeTask tasks st id res).completed = st.completed ++ [id] ∧
    (completeTask tasks st id res).launched = st.launched ∧
    (completeTask tasks st id res).running =
      st.running.filter (fun p => p.1 != id) ∧
    (completeTask tasks st id res).ctx =
      (match res with
        | some v => jsMerge st.ctx [(id, v)]
        | none => st.ctx) ∧
    (∀ k, statusOf (completeTask tasks st id res).statuses k =
      if k = id then
        (match res with
          | some _ => TStatus.completed
          | none => TStatus.failed)
      else statusOf st.statuses k) ∧
    (completeTask tasks st id res).ready =
      rescanReady tasks { completeTask tasks st id res with ready := st.ready } := by
  cases res with
  | some v =>
    refine ⟨?_, rfl, rfl, rfl, ?_, rfl⟩
    · show (if st.completed.contains id = true then st.completed
        else st.completed ++ [id]) = _
      rw [if_neg hnotc]
    · intro k
      show assocGetD TStatus.pending (assocSet st.statuses id TStatus.completed) k = _
      rw [assocGetD_assocSet]
      rfl
  | none =>
    refine ⟨?_, rfl, rfl, rfl, ?_, rfl⟩
    · show (if st.completed.contains id = true then st.completed
        else st.completed ++ [id]) = _
      rw [if_neg hnotc]
    · intro k
      show assocGetD TStatus.pending (assocSet st.statuses id TStatus.failed) k = _
      rw [assocGetD_assocSet]
      rfl

/-- The initial ready set is a subsequence of the topological order made of
tasks with an empty dependency list. -/
theorem initReady_ok (tasks : Graph) :
    ∀ (order : List String), (∀ id ∈ order, id ∈ taskIds tasks) →
      ∃ r0, initReady tasks order = .ok r0 ∧ List.Sublist r0 order ∧
        ∀ id ∈ r0, ∃ t, findTask tasks id = some t ∧ t.dependencies = [] := by
  intro order
  induction order with
  | nil =>
    exact fun _ => ⟨[], rfl, List.Sublist.refl [],
      fun id h => absurd h (List.not_mem_nil id)⟩
  | cons id rest ih =>
    intro hin
    obtain ⟨t, ht⟩ := findTask_isSome tasks id (hin id (List.mem_cons_self _ _))
    obtain ⟨r, hr, hsub, hprop⟩ := ih (fun x hx => hin x (List.mem_cons_of_mem _ hx))
    by_cases hdep : t.dependencies.isEmpty = true
    · refine ⟨id :: r, ?_, hsub.cons₂ id, ?_⟩
      · simp only [initReady, ht, hr, if_pos hdep]
      · intro x hx
        rcases List.mem_cons.mp hx with h | h
        · subst h
          exact ⟨t, ht, List.isEmpty_iff.mp hdep⟩
        · exact hprop x h
    · refine ⟨r, ?_, hsub.cons id, hprop⟩
      simp only [initReady, ht, hr, if_neg hdep]

theorem runInitialContext_keys (seed : SeedSpec) (k : String) :
    jsLookup (runInitialContext seed) k ≠ none → k = "initial" := by
  intro h
  by_cases hk : "initial" = k
  · exact hk.symm
  · exfalso
    apply h
    rw [runInitialContext, contextReset]
    by_cases ht : jsTruthy (seedValue seed) = true
    · rw [if_pos ht]
      simp [jsLookup, hk]
    · rw [if_neg ht]
      simp [jsLookup, hk]

theorem task_unique (tasks : Graph) (hids : (taskIds tasks).Nodup)
    (B t : MTask) (hB : B ∈ tasks) (ht : t ∈ tasks) (h : t.id = B.id) : t = B := by
  have h1 := findTask_self tasks hids t ht
  have h2 := findTask_self tasks hids B hB
  rw [h] at h1
  exact Option.some.inj (h1.symm.trans h2)

/-- The invariant of the run loop for the failed-dependency argument:
well-formedness of the ready/running/completed bookkeeping, plus: the
status of `aId` is never `completed` (its behavior always fails), so `bId`
(which depends on `aId`) is never ready, running, or launched, and every
context key other than `initial` belongs to a launched task. -/
structure LoopInv (tasks : Graph) (aId bId : String) (st : RunState) : Prop where
  readyIds : ∀ id ∈ st.ready, id ∈ taskIds tasks
  readyNd : st.ready.Nodup
  readyNC : ∀ id ∈ st.ready, id ∉ st.completed
  readyNR : ∀ id ∈ st.ready, id ∉ runningIds st
  runNd : (runningIds st).Nodup
  runIds : ∀ id ∈ runningIds st, id ∈ taskIds tasks
  runNC : ∀ id ∈ runningIds st, id ∉ st.completed
  compNd : st.completed.Nodup
  aNotCompleted : statusOf st.statuses aId ≠ TStatus.completed
  aRunNone : ∀ p ∈ st.running, p.1 = aId → p.2 = none
  bNotReady : bId ∉ st.ready
  bNotRunning : bId ∉ runningIds st
  bNotLaunched : bId ∉ st.launched
  runLaunched : ∀ id ∈ runningIds st, id ∈ st.launched
  ctxKeys : ∀ k, jsLookup st.ctx k ≠ none → k = "initial" ∨ k ∈ st.launched

/-- The run loop, started in any invariant state with enough fuel, resolves
with a state in which `bId` was never launched and all context keys other
than `initial` belong to launched tasks. -/
theorem runLoop_c2 (tasks : Graph) (A B : MTask)
    (hids : (taskIds tasks).Nodup) (hAmem : A ∈ tasks) (hBmem : B ∈ tasks)
    (hdep : A.id ∈ B.dependencies) (hfail : ∀ c, A.behavior c = none) :
    ∀ (fuel : Nat) (sched : List Nat) (st : RunState),
      LoopInv tasks A.id B.id st →
      fuel + st.completed.length ≥ tasks.length + 1 →
      ∃ st2, runLoop tasks fuel sched st = some (.ok st2) ∧
        B.id ∉ st2.launched ∧
        (∀ k, jsLookup st2.ctx k ≠ none → k = "initial" ∨ k ∈ st2.launched) := by
  have hfA : findTask tasks A.id = some A := findTask_self tasks hids A hAmem
  intro fuel
  induction fuel with
  | zero =>
    intro sched st hinv hfuel
    have hdone : st.completed.length ≥ tasks.length := by omega
    refine ⟨st, ?_, hinv.bNotLaunched, hinv.ctxKeys⟩
    rw [runLoop, if_pos hdone]
  | succ fuel ih =>
    intro sched st hinv hfuel
    by_cases hdone : st.completed.length ≥ tasks.length
    · refine ⟨st, ?_, hinv.bNotLaunched, hinv.ctxKeys⟩
      rw [runLoop, if_pos hdone]
    · -- launch the ready wave
      obtain ⟨st1, hlaunch, hcomp1, hctx1, hready1, hrids1, hlau1, hstat1, hstatin1,
          hentries1⟩ :=
        launchReady_spec tasks st.ready { st with ready := [] }
          hinv.readyIds hinv.readyNd hinv.readyNR
      have hready1' : st1.ready = ([] : List String) := hready1
      have hcomp1' : st1.completed = st.completed := hcomp1
      -- invariant facts for st1
      have hrunIds1 : runningIds st1 = runningIds st ++ st.ready := hrids1
      have hrunNd1 : (runningIds st1).Nodup := by
        rw [hrunIds1]
        simp only [List.nodup_append]
        exact ⟨hinv.runNd, hinv.readyNd,
          fun a ha hb => (hinv.readyNR a hb) ha⟩
      have hrunIdsIn1 : ∀ id ∈ runningIds st1, id ∈ taskIds tasks := by
        intro id hid
        rw [hrunIds1] at hid
        rcases List.mem_append.mp hid with h | h
        · exact hinv.runIds id h
        · exact hinv.readyIds id h
      have hrunNC1 : ∀ id ∈ runningIds st1, id ∉ st1.completed := by
        intro id hid
        rw [hrunIds1] at hid
        rw [hcomp1']
        rcases List.mem_append.mp hid with h | h
        · exact hinv.runNC id h
        · exact hinv.readyNC id h
      have haNC1 : statusOf st1.statuses A.id ≠ TStatus.completed := by
        by_cases hin : A.id ∈ st.ready
        · rw [hstatin1 A.id hin]
          intro hc
          cases hc
        · rw [hstat1 A.id hin]
          exact hinv.aNotCompleted
      have haRun1 : ∀ p ∈ st1.running, p.1 = A.id → p.2 = none := by
        intro p hp hpa
        rcases hentries1 p hp with h | h
        · exact hinv.aRunNone p h hpa
        · obtain ⟨_, t, htf, hbeh⟩ := h
          rw [hpa] at htf
          rw [hfA] at htf
          have : t = A := (Option.some.inj htf).symm
          subst this
          rw [hbeh, hfail]
      have hbNR1 : B.id ∉ runningIds st1 := by
        rw [hrunIds1]
        intro hmem
        rcases List.mem_append.mp hmem with h | h
        · exact hinv.bNotRunning h
        · exact hinv.bNotReady h
      have hbNL1 : B.id ∉ st1.launched := by
        rw [hlau1]
        intro hmem
        rcases List.mem_append.mp hmem with h | h
        · exact hinv.bNotLaunched h
        · exact hinv.bNotReady h
      have hrunLau1 : ∀ id ∈ runningIds st1, id ∈ st1.launched := by
        intro id hid
        rw [hrunIds1] at hid
        rw [hlau1]
        rcases List.mem_append.mp hid with h | h
        · exact List.mem_append_left _ (hinv.runLaunched id h)
        · exact List.mem_append_right _ h
      have hctxKeys1 : ∀ k, jsLookup st1.ctx k ≠ none →
          k = "initial" ∨ k ∈ st1.launched := by
        intro k hk
        rw [hctx1] at hk
        rcases hinv.ctxKeys k hk with h | h
        · exact Or.inl h
        · exact Or.inr (by rw [hlau1]; exact List.mem_append_left _ h)
      by_cases hrl : st1.running.length = 0
      · refine ⟨st1, ?_, hbNL1, hctxKeys1⟩
        rw [runLoop, if_neg hdone]
        simp only [hlaunch]
        rw [dif_pos hrl]
      · -- one completion step
        have hlt : sched.headD 0 % st1.running.length < st1.running.length :=
          Nat.mod_lt _ (Nat.pos_of_ne_zero hrl)
        set pr := st1.running.get ⟨sched.headD 0 % st1.running.length, hlt⟩ with hpr
        have hprMem : pr ∈ st1.running := List.get_mem _ _ _
        have hprIdRun : pr.1 ∈ runningIds st1 :=
          List.mem_map_of_mem Prod.fst hprMem
        have hprNC : pr.1 ∉ st1.completed := hrunNC1 pr.1 hprIdRun
        have hprNCb : ¬(st1.completed.contains pr.1 = true) := by
          intro hx
          exact hprNC ((contains_true_iff _ _).mp hx)
        obtain ⟨hc2, hl2, hr2, hx2, hs2, hready2⟩ :=
          completeTask_spec tasks st1 pr.1 pr.2 hprNCb
        set st2 := completeTask tasks st1 pr.1 pr.2 with hst2
        set stB : RunState := { st2 with ready := st1.ready } with hstB
        have hready2' : st2.ready = rescanReady tasks stB := hready2
        -- running ids of st2
        have hrids2 : runningIds st2 =
            (runningIds st1).filter (fun x => x != pr.1) := by
          rw [runningIds, hr2, map_fst_filter_ne]
          rfl
        have hrunMem2 : ∀ id ∈ runningIds st2, id ∈ runningIds st1 ∧ id ≠ pr.1 := by
          intro id hid
          rw [hrids2] at hid
          have h1 := List.mem_filter.mp hid
          exact ⟨h1.1, by simpa using h1.2⟩
        -- the rescan base state stB has empty ready and st2's other fields
        have hstBready : stB.ready = ([] : List String) := hready1'
        have hstBcomp : stB.completed = st2.completed := rfl
        have hstBrun : runningIds stB = runningIds st2 := rfl
        have hstBstat : stB.statuses = st2.statuses := rfl
        -- LoopInv for st2
        have hinv2 : LoopInv tasks A.id B.id st2 := by
          have hreadyMem : ∀ id ∈ st2.ready, id ∈ taskIds tasks ∧
              id ∉ st2.completed ∧ id ∉ runningIds st2 := by
            intro id hid
            rw [hready2', rescanReady, hstBready] at hid
            rcases rescanReady_mem tasks stB tasks [] id hid with h | h
            · cases h
            · obtain ⟨t, htmem, htid, hnc, hnr, _⟩ := h
              refine ⟨htid ▸ List.mem_map_of_mem (fun u => u.id) htmem, ?_, ?_⟩
              · rw [← hstBcomp]; exact hnc
              · rw [← hstBrun]; exact hnr
          refine ⟨fun id hid => (hreadyMem id hid).1, ?_,
            fun id hid => (hreadyMem id hid).2.1,
            fun id hid => (hreadyMem id hid).2.2, ?_, ?_, ?_, ?_, ?_, ?_, ?_, ?_, ?_,
            ?_, ?_⟩
          · rw [hready2', rescanReady, hstBready]
            exact rescanReady_nodup tasks stB tasks [] List.nodup_nil
          · -- runNd
            rw [hrids2]
            exact hrunNd1.filter _
          · -- runIds
            intro id hid
            exact hrunIdsIn1 id (hrunMem2 id hid).1
          · -- runNC
            intro id hid
            rw [hc2]
            intro hmem
            rcases List.mem_append.mp hmem with h | h
            · exact hrunNC1 id (hrunMem2 id hid).1 h
            · exact (hrunMem2 id hid).2 (List.mem_singleton.mp h)
          · -- compNd
            rw [hc2]
            simp only [List.nodup_append]
            refine ⟨hcomp1' ▸ hinv.compNd, List.nodup_singleton _, ?_⟩
            intro a ha hb
            rw [List.mem_singleton] at hb
            exact hprNC (hb ▸ ha)
          · -- aNotCompleted
            rw [hs2 A.id]
            by_cases hquad : A.id = pr.1
            · rw [if_pos hquad]
              have hres : pr.2 = none := haRun1 pr hprMem hquad.symm
              rw [hres]
              intro hc
              cases hc
            · rw [if_neg hquad]
              exact haNC1
          · -- aRunNone
            intro p hp hpa
            rw [hr2] at hp
            exact haRun1 p (List.mem_filter.mp hp).1 hpa
          · -- bNotReady
            intro hmem
            rw [hready2', rescanReady, hstBready] at hmem
            rcases rescanReady_mem tasks stB tasks [] B.id hmem with h | h
            · cases h
            · obtain ⟨t, htmem, htid, _, _, hcan⟩ := h
              have htB : t = B := task_unique tasks hids B t hBmem htmem htid
              subst htB
              rw [canRun, List.all_eq_true] at hcan
              have hA := hcan A.id hdep
              rw [hfA] at hA
              have hA2 := (Bool.and_eq_true _ _).mp hA
              have hA3 : statusOf stB.statuses A.id = TStatus.completed := by
                have := hA2.2
                exact eq_of_beq this
              rw [hstBstat] at hA3
              rw [hs2 A.id] at hA3
              by_cases hquad : A.id = pr.1
              · rw [if_pos hquad] at hA3
                have hres : pr.2 = none := haRun1 pr hprMem hquad.symm
                rw [hres] at hA3
                cases hA3
              · rw [if_neg hquad] at hA3
                exact haNC1 hA3
          · -- bNotRunning
            intro hmem
            exact hbNR1 (hrunMem2 B.id hmem).1
          · -- bNotLaunched
            rw [hl2]
            exact hbNL1
          · -- runLaunched
            intro id hid
            rw [hl2]
            exact hrunLau1 id (hrunMem2 id hid).1
          · -- ctxKeys
            intro k hk
            rw [hl2]
            cases hres : pr.2 with
            | some v =>
              have hx2' : st2.ctx = jsMerge st1.ctx [(pr.1, v)] := by
                rw [hx2, hres]
              rw [hx2', jsMerge_single, jsLookup_jsSet] at hk
              by_cases hkp : k = pr.1
              · exact Or.inr (hkp ▸ hrunLau1 pr.1 hprIdRun)
              · rw [if_neg hkp] at hk
                exact hctxKeys1 k hk
            | none =>
              have hx2' : st2.ctx = st1.ctx := by
                rw [hx2, hres]
              rw [hx2'] at hk
              exact hctxKeys1 k hk
        -- fuel accounting
        have hcount : st2.completed.length = st.completed.length + 1 := by
          rw [hc2, hcomp1', List.length_append]
          rfl
        obtain ⟨stF, hrun, hbF, hctxF⟩ :=
          ih sched.tail st2 hinv2 (by omega)
        refine ⟨stF, ?_, hbF, hctxF⟩
        rw [runLoop, if_neg hdone]
        simp only [hlaunch]
        rw [dif_neg hrl]
        exact hrun

/-- C2: in every graph run in which task `B` depends on task `A` and `A`'s
execution fails after exhausting its retries (its behavior yields no result
on any context), under every completion schedule: `run()` resolves with a
context rather than rejecting, `B`'s execute function is never invoked, and
the final context contains no key `B`.  (Task names are distinct and the
topological order is well-formed, as the builder guarantees; `B` is not the
reserved `initial` key.) -/
theorem run_failed_dependency_skips_dependent
    (tasks : Graph) (order : List String) (seed : SeedSpec) (sched : List Nat)
    (A B : MTask)
    (hids : (taskIds tasks).Nodup)
    (horder : ∀ id ∈ order, id ∈ taskIds tasks)
    (hordNd : order.Nodup)
    (hord0 : order ≠ [])
    (hAmem : A ∈ tasks) (hBmem : B ∈ tasks)
    (hdep : A.id ∈ B.dependencies)
    (hfail : ∀ c, A.behavior c = none)
    (hBinit : B.id ≠ "initial") :
    ∃ st, runGraph tasks order seed sched = some (.ok st) ∧
      B.id ∉ st.launched ∧ jsLookup st.ctx B.id = none := by
  obtain ⟨r0, hinit, hsub, hprop⟩ := initReady_ok tasks order horder
  have hr0nd : r0.Nodup := hordNd.sublist hsub
  have hinv0 : LoopInv tasks A.id B.id ⟨[], [], r0, [], runInitialContext seed, []⟩ := by
    refine ⟨?_, hr0nd, ?_, ?_, List.nodup_nil, ?_, ?_, List.nodup_nil, ?_, ?_,
      ?_, ?_, ?_, ?_, ?_⟩
    · intro id hid
      obtain ⟨t, htf, _⟩ := hprop id hid
      exact findTask_mem tasks id t htf
    · exact fun id _ hc => absurd hc (List.not_mem_nil _)
    · exact fun id _ hc => absurd hc (List.not_mem_nil _)
    · exact fun id hc => absurd hc (List.not_mem_nil _)
    · exact fun id hc => absurd hc (List.not_mem_nil _)
    · intro h
      simp [statusOf, assocGetD] at h
    · exact fun p hp => absurd hp (List.not_mem_nil _)
    · intro hmem
      obtain ⟨t, htf, hdeps0⟩ := hprop B.id hmem
      obtain ⟨htid, htmem⟩ := findTask_eq tasks B.id t htf
      have : t = B := task_unique tasks hids B t hBmem htmem htid
      subst this
      rw [hdeps0] at hdep
      exact absurd hdep (List.not_mem_nil _)
    · exact fun hc => absurd hc (List.not_mem_nil _)
    · exact fun hc => absurd hc (List.not_mem_nil _)
    · exact fun id hc => absurd hc (List.not_mem_nil _)
    · exact fun k hk => Or.inl (runInitialContext_keys seed k hk)
  obtain ⟨st2, hloop, hbL, hctx⟩ :=
    runLoop_c2 tasks A B hids hAmem hBmem hdep hfail (tasks.length + 1) sched _
      hinv0 (by simp)
  have hlen : ¬(order.length = 0) := fun h => hord0 (List.length_eq_zero.mp h)
  refine ⟨st2, ?_, hbL, ?_⟩
  · rw [runGraph, if_neg hlen]
    simp only [hinit]
    exact hloop
  · by_cases hn : jsLookup st2.ctx B.id = none
    · exact hn
    · rcases hctx B.id hn with h | h
      · exact absurd h hBinit
      · exact absurd h hbL

theorem run_failed_dependency_skips_dependent_witness :
    runGraph
        [⟨"a", [], fun _ => none⟩, ⟨"b", ["a"], fun _ => some (JSVal.number 2)⟩]
        ["a", "b"] (SeedSpec.value JSVal.undef) [] =
      some (.ok ⟨["a"], [], [], [("a", TStatus.failed)],
        [("initial", JSVal.undef)], ["a"]⟩) ∧
    "b" ∉ (⟨["a"], [], [], [("a", TStatus.failed)],
        [("initial", JSVal.undef)], ["a"]⟩ : RunState).launched ∧
    jsLookup (⟨["a"], [], [], [("a", TStatus.failed)],
        [("initial", JSVal.undef)], ["a"]⟩ : RunState).ctx "b" = none := by
  obtain ⟨st, h1, h2, h3⟩ :=
    run_failed_dependency_skips_dependent
      [⟨"a", [], fun _ => none⟩, ⟨"b", ["a"], fun _ => some (JSVal.number 2)⟩]
      ["a", "b"] (SeedSpec.value JSVal.undef) []
      ⟨"a", [], fun _ => none⟩ ⟨"b", ["a"], fun _ => some (JSVal.number 2)⟩
      (by decide) (by decide) (by decide) (by simp)
      (List.mem_cons_self _ _)
      (List.mem_cons_of_mem _ (List.mem_cons_self _ _))
      (List.mem_cons_self _ _) (fun _ => rfl) (by decide)
  have hb : runGraph
      [⟨"a", [], fun _ => none⟩, ⟨"b", ["a"], fun _ => some (JSVal.number 2)⟩]
      ["a", "b"] (SeedSpec.value JSVal.undef) [] =
      some (Except.ok ⟨["a"], [], [], [("a", TStatus.failed)],
        [("initial", JSVal.undef)], ["a"]⟩) := rfl
  have hst : st = ⟨["a"], [], [], [("a", TStatus.failed)],
      [("initial", JSVal.undef)], ["a"]⟩ :=
    Except.ok.inj (Option.some.inj (h1.symm.trans hb))
  rw [hst] at h2 h3
  exact ⟨hb, h2, h3⟩

/-- C5 is contradicted by the code: `addTask` accepts a task literally
named `initial` (no build-time rejection exists), and running the
resulting graph merges the task's result over the reserved `initial` key,
overwriting the seed: with seed `{count: 0}`, the final context holds
`42` under `initial` instead of the seed's spread copy. -/
theorem initial_task_accepted_and_overwritten :
    (addTask [] ⟨"initial", [], fun _ => some (JSVal.number 42)⟩).1 = none ∧
    (addTask [] ⟨"initial", [], fun _ => some (JSVal.number 42)⟩).2 =
      [⟨"initial", [], fun _ => some (JSVal.number 42)⟩] ∧
    runGraph [⟨"initial", [], fun _ => some (JSVal.number 42)⟩] ["initial"]
        (SeedSpec.value (JSVal.obj [("count", JSVal.number 0)])) [] =
      some (.ok ⟨["initial"], [], [], [("initial", TStatus.completed)],
        [("initial", JSVal.number 42)], ["initial"]⟩) ∧
    jsLookup [("initial", JSVal.number 42)] "initial" ≠
      some (jsSpreadVal (JSVal.obj [("count", JSVal.number 0)])) := by
  refine ⟨rfl, rfl, rfl, ?_⟩
  intro h
  exact JSVal.noConfusion (Option.some.inj h)

end Clujo
